import Mathlib

/-!
Verification of the `closer` package (desertbit/closer), a thread-safe
hierarchical shutdown coordinator, against its natural-language specification.

The Go source (`closer.go`) is shallowly embedded as follows.

* Each `*closer` value is identified by a `NodeId` (allocation order).
* A `World` maps every `NodeId` to its `CloserState` (the mutable fields of the
  Go struct: the two one-shot channels become two monotone booleans, the
  collected multierror becomes `Option (List Err)` where `none` is Go's `nil`
  error, the close funcs become a list of deep-embedded `Hook`s, and the
  `sync.WaitGroup` counter becomes an integer).
* `World.log` records the observable events of an execution: mutex lock and
  unlock per node, the cross-node `Close` invocations, and the observations
  made by close funcs (a close func may probe another node's `IsClosing` /
  `IsClosed` state, mirroring the closures used in the package's own tests).
* `Closer.Close` is embedded as `closeNode`, a fuel-indexed function; `none`
  means the sequential execution either ran out of fuel or blocked forever
  (`wg.Wait` with a non-zero counter, which in a single-threaded execution
  never returns).  All statements about a completed `Close()` are conditioned
  on a `some` result, and witnesses evaluate concrete runs.
-/

set_option maxHeartbeats 1000000

namespace CloserPkg

/-- Identity of an error value returned by a close func. -/
abbrev Err := Nat

/-- Identity of a closer (allocation order). -/
abbrev NodeId := Nat

/-- Observable events of an execution: per-node mutex operations, cross-node
`Close` invocations (`callChild` is the loop `child.Close()`, `callParent`
is the two-way upward `c.parent.Close()`), and state observations made by
close funcs. -/
inductive Event where
  | lock (n : NodeId)
  | unlock (n : NodeId)
  | callChild (caller child : NodeId)
  | callParent (caller par : NodeId)
  | obs (tgt : NodeId) (closing closed : Bool)
  deriving DecidableEq, Repr

/-- A close func (`CloseFunc = func() error`).  `ret e` returns the error `e`
(`none` is Go's `nil`); `probe tgt e` additionally records the target node's
`IsClosing()` / `IsClosed()` values in the event log before returning `e`,
modelling the state-inspecting closures of the package's tests. -/
inductive Hook where
  | ret (e : Option Err)
  | probe (tgt : NodeId) (e : Option Err)
  deriving DecidableEq, Repr

/-- The error a hook returns. -/
def Hook.errOf : Hook → Option Err
  | .ret e => e
  | .probe _ e => e

/-- The mutable fields of the Go `closer` struct. -/
@[ext] structure CloserState where
  closingFlag : Bool
  closedFlag : Bool
  closeErr : Option (List Err)
  funcs : List Hook
  parent : Option NodeId
  children : List NodeId
  wgCount : Int
  twoWay : Bool
  deriving Repr

/-- A heap of closers plus the event log and the next fresh id. -/
structure World where
  st : NodeId → CloserState
  log : List Event
  next : NodeId

/-- Overwrite one node's state. -/
def setSt (w : World) (n : NodeId) (s : CloserState) : World :=
  { w with st := fun m => if m = n then s else w.st m }

/-- Append one event to the log. -/
def pushEvent (w : World) (e : Event) : World :=
  { w with log := w.log ++ [e] }

/-- `newCloser` of the source: a fresh closer state with the given close
funcs, no parent, no children. -/
def newCloser (f : List Hook) : CloserState :=
  { closingFlag := false
    closedFlag := false
    closeErr := none
    funcs := f
    parent := none
    children := []
    wgCount := 0
    twoWay := false }

/-- `New` of the source: allocate a root closer. -/
def NewC (w : World) (f : List Hook) : World × NodeId :=
  (⟨fun m => if m = w.next then newCloser f else w.st m, w.log, w.next + 1⟩, w.next)

/-- `addChild` of the source: allocate a child closer with the given close
funcs, record the current closer as its parent and the `twoWay` flag, and
append it to the current closer's `children`. -/
def addChild (w : World) (n : NodeId) (twoWay : Bool) (f : List Hook) : World × NodeId :=
  let cid := w.next
  let child : CloserState := { newCloser f with parent := some n, twoWay := twoWay }
  let w1 : World := ⟨fun m => if m = cid then child else w.st m, w.log, w.next + 1⟩
  let s := w1.st n
  (setSt w1 n { s with children := s.children ++ [cid] }, cid)

/-- `OneWay` of the source. -/
def OneWay (w : World) (n : NodeId) (f : List Hook) : World × NodeId :=
  addChild w n false f

/-- `TwoWay` of the source. -/
def TwoWay (w : World) (n : NodeId) (f : List Hook) : World × NodeId :=
  addChild w n true f

/-- `OnClose` of the source: append close funcs. -/
def OnClose (w : World) (n : NodeId) (f : List Hook) : World :=
  setSt w n { w.st n with funcs := (w.st n).funcs ++ f }

/-- `AddWaitGroup` of the source: `c.wg.Add(delta)`.  `sync.WaitGroup`
panics when the counter would become negative; a panic is modelled as
`none`. -/
def AddWaitGroup (w : World) (n : NodeId) (delta : Int) : Option World :=
  if (w.st n).wgCount + delta < 0 then none
  else some (setSt w n { w.st n with wgCount := (w.st n).wgCount + delta })

/-- `Done` of the source: `c.wg.Done()`, i.e. `c.wg.Add(-1)`. -/
def Done (w : World) (n : NodeId) : Option World :=
  AddWaitGroup w n (-1)

/-- `IsClosing` of the source (non-blocking read of the closing channel). -/
def IsClosing (w : World) (n : NodeId) : Bool :=
  (w.st n).closingFlag

/-- `IsClosed` of the source (non-blocking read of the closed channel). -/
def IsClosed (w : World) (n : NodeId) : Bool :=
  (w.st n).closedFlag

/-- Run one close func: return its error and log the observation if it is a
probe.  The node states are never modified by a hook. -/
def runHook (w : World) (h : Hook) : World × Option Err :=
  match h with
  | .ret e => (w, e)
  | .probe t e =>
      (pushEvent w (Event.obs t (w.st t).closingFlag (w.st t).closedFlag), e)

/-- Run close funcs in the given order, collecting the non-nil errors in
execution order (the `multierror.Append` loop of `Close`). -/
def runHooks (w : World) : List Hook → World × List Err
  | [] => (w, [])
  | h :: hs =>
      let r := runHook w h
      let r2 := runHooks r.1 hs
      (r2.1, match r.2 with
             | none => r2.2
             | some x => x :: r2.2)

/-- The `for _, child := range c.children { _ = child.Close() }` loop,
parameterised by the function used to close one child (the child's returned
error is discarded, as in the source). -/
def closeListWith (f : World → NodeId → Option (World × Option (List Err))) :
    World → List NodeId → Option World
  | w, [] => some w
  | w, c :: cs =>
      match f w c with
      | none => none
      | some r => closeListWith f r.1 cs

/-- `Close` of the source, with `fuel` bounding the recursion depth (the
protocol terminates because a closing node is never re-entered; `none` means
out of fuel or blocked forever in `wg.Wait`).  Faithful transcription of the
statement order of `closer.Close`:
lock; early return when already closing; fire the closing channel; close all
children (discarding their errors); wait on the wait group; run the close
funcs in LIFO order collecting errors; store the multierror if non-empty;
fire the closed channel; unlock; if two-way with a parent that is not yet
closing, close the parent; return the stored error. -/
def closeNode : Nat → World → NodeId → Option (World × Option (List Err))
  | 0, _, _ => none
  | fuel + 1, w, n =>
      let wL := pushEvent w (Event.lock n)
      let s := wL.st n
      if s.closingFlag then
        some (pushEvent wL (Event.unlock n), s.closeErr)
      else
        let w1 := setSt wL n { s with closingFlag := true }
        match closeListWith
            (fun wa c => closeNode fuel (pushEvent wa (Event.callChild n c)) c)
            w1 s.children with
        | none => none
        | some w2 =>
            if (w2.st n).wgCount = 0 then
              let s2 := w2.st n
              let hr := runHooks w2 s2.funcs.reverse
              let s3 := hr.1.st n
              let newErr : Option (List Err) :=
                if hr.2.isEmpty then s3.closeErr else some hr.2
              let w4 := pushEvent
                (setSt hr.1 n
                  { s3 with funcs := [], closeErr := newErr, closedFlag := true })
                (Event.unlock n)
              let s4 := w4.st n
              if s4.twoWay then
                match s4.parent with
                | some p =>
                    if (w4.st p).closingFlag then
                      some (w4, (w4.st n).closeErr)
                    else
                      match closeNode fuel (pushEvent w4 (Event.callParent n p)) p with
                      | none => none
                      | some r => some (r.1, (r.1.st n).closeErr)
                | none => some (w4, (w4.st n).closeErr)
              else
                some (w4, (w4.st n).closeErr)
            else
              none

/-- `CloseAndDone` of the source: decrement the wait group, then close. -/
def CloseAndDone (fuel : Nat) (w : World) (n : NodeId) :
    Option (World × Option (List Err)) :=
  match Done w n with
  | none => none
  | some w1 => closeNode fuel w1 n

end CloserPkg

namespace CloserPkg

/-! ## Basic facts about the world primitives -/

theorem setSt_st_self (w : World) (n : NodeId) (s : CloserState) :
    (setSt w n s).st n = s := by
  simp [setSt]

theorem setSt_st_ne (w : World) (n : NodeId) (s : CloserState) {m : NodeId}
    (h : m ≠ n) : (setSt w n s).st m = w.st m := by
  simp [setSt, h]

theorem setSt_log (w : World) (n : NodeId) (s : CloserState) :
    (setSt w n s).log = w.log := rfl

theorem pushEvent_st (w : World) (e : Event) : (pushEvent w e).st = w.st := rfl

theorem pushEvent_log (w : World) (e : Event) :
    (pushEvent w e).log = w.log ++ [e] := rfl

/-! ## The evolution relation

`Evolves w w2` collects everything that is preserved or monotone across a
completed `Close` call (and across the children loop): the closing and closed
flags only ever go from `false` to `true`; the structural fields (`parent`,
`children`, `twoWay`, `wgCount`) never change; a node that was already closing
keeps its funcs and stored error (its `Close` short-circuits); a node that is
not closing at the end was never touched; every node that started closing
during the call is fully closed at the end; and the event log only grows, with
every appended observation reading a state at least as advanced as `w`. -/

def ObsTruthful (w : World) : Event → Prop
  | .obs t cg cd =>
      ((w.st t).closingFlag = true → cg = true) ∧
      ((w.st t).closedFlag = true → cd = true)
  | _ => True

def Evolves (w w2 : World) : Prop :=
  (∀ m, (w.st m).closingFlag = true → (w2.st m).closingFlag = true) ∧
  (∀ m, (w.st m).closedFlag = true → (w2.st m).closedFlag = true) ∧
  (∀ m, (w2.st m).parent = (w.st m).parent ∧ (w2.st m).children = (w.st m).children ∧
        (w2.st m).twoWay = (w.st m).twoWay ∧ (w2.st m).wgCount = (w.st m).wgCount) ∧
  (∀ m, (w.st m).closingFlag = true →
        (w2.st m).funcs = (w.st m).funcs ∧ (w2.st m).closeErr = (w.st m).closeErr) ∧
  (∀ m, (w2.st m).closingFlag = false →
        (w2.st m).funcs = (w.st m).funcs ∧ (w2.st m).closeErr = (w.st m).closeErr ∧
        (w2.st m).closedFlag = (w.st m).closedFlag ∧
        (w2.st m).closingFlag = (w.st m).closingFlag) ∧
  (∀ m, (w2.st m).closingFlag = true →
        (w.st m).closingFlag = true ∨ (w2.st m).closedFlag = true) ∧
  (∃ t, w2.log = w.log ++ t ∧ ∀ e ∈ t, ObsTruthful w e)

theorem Evolves.refl (w : World) : Evolves w w := by
  refine ⟨fun m h => h, fun m h => h, fun m => ⟨rfl, rfl, rfl, rfl⟩,
    fun m _ => ⟨rfl, rfl⟩, fun m h => ⟨rfl, rfl, rfl, rfl⟩, fun m h => Or.inl h,
    [], by simp, by simp⟩

theorem ObsTruthful.mono {w w2 : World}
    (h1 : ∀ m, (w.st m).closingFlag = true → (w2.st m).closingFlag = true)
    (h2 : ∀ m, (w.st m).closedFlag = true → (w2.st m).closedFlag = true)
    {e : Event} (ht : ObsTruthful w2 e) : ObsTruthful w e := by
  cases e with
  | obs t cg cd => exact ⟨fun h => ht.1 (h1 t h), fun h => ht.2 (h2 t h)⟩
  | lock n => trivial
  | unlock n => trivial
  | callChild a b => trivial
  | callParent a b => trivial

theorem Evolves.trans {w w1 w2 : World} (a : Evolves w w1) (b : Evolves w1 w2) :
    Evolves w w2 := by
  obtain ⟨a1, a2, a3, a4, a5, a6, ta, hta, hea⟩ := a
  obtain ⟨b1, b2, b3, b4, b5, b6, tb, htb, heb⟩ := b
  refine ⟨fun m h => b1 m (a1 m h), fun m h => b2 m (a2 m h),
    fun m => ⟨(b3 m).1.trans (a3 m).1, (b3 m).2.1.trans (a3 m).2.1,
      (b3 m).2.2.1.trans (a3 m).2.2.1, (b3 m).2.2.2.trans (a3 m).2.2.2⟩,
    ?_, ?_, ?_, ta ++ tb, ?_, ?_⟩
  · intro m h
    have ha := a4 m h
    have hb := b4 m (a1 m h)
    exact ⟨hb.1.trans ha.1, hb.2.trans ha.2⟩
  · intro m h
    have hb := b5 m h
    have h1 : (w1.st m).closingFlag = false := hb.2.2.2 ▸ h
    have ha := a5 m h1
    exact ⟨hb.1.trans ha.1, hb.2.1.trans ha.2.1, hb.2.2.1.trans ha.2.2.1,
      hb.2.2.2.trans ha.2.2.2⟩
  · intro m h
    rcases b6 m h with h1 | h1
    · rcases a6 m h1 with h2 | h2
      · exact Or.inl h2
      · exact Or.inr (b2 m h2)
    · exact Or.inr h1
  · rw [htb, hta, List.append_assoc]
  · intro e he
    rcases List.mem_append.mp he with h | h
    · exact hea e h
    · exact ObsTruthful.mono a1 a2 (heb e h)

theorem evolves_push {w : World} {e : Event} (h : ObsTruthful w e) :
    Evolves w (pushEvent w e) := by
  refine ⟨fun m h => h, fun m h => h, fun m => ⟨rfl, rfl, rfl, rfl⟩,
    fun m _ => ⟨rfl, rfl⟩, fun m _ => ⟨rfl, rfl, rfl, rfl⟩, fun m h => Or.inl h,
    [e], rfl, ?_⟩
  intro x hx
  simp at hx
  subst hx
  exact h

theorem obsTruthful_nonobs (w : World) :
    (∀ n, ObsTruthful w (Event.lock n)) ∧ (∀ n, ObsTruthful w (Event.unlock n)) ∧
    (∀ a b, ObsTruthful w (Event.callChild a b)) ∧
    (∀ a b, ObsTruthful w (Event.callParent a b)) :=
  ⟨fun _ => trivial, fun _ => trivial, fun _ _ => trivial, fun _ _ => trivial⟩

theorem runHook_st (w : World) (h : Hook) : (runHook w h).1.st = w.st := by
  cases h with
  | ret e => rfl
  | probe t e => rfl

theorem evolves_runHook (w : World) (h : Hook) : Evolves w (runHook w h).1 := by
  cases h with
  | ret e => exact Evolves.refl w
  | probe t e =>
      exact evolves_push ⟨fun h => h, fun h => h⟩

theorem runHooks_st (w : World) (hs : List Hook) : (runHooks w hs).1.st = w.st := by
  induction hs generalizing w with
  | nil => rfl
  | cons h hs ih =>
      show (runHooks (runHook w h).1 hs).1.st = w.st
      rw [ih, runHook_st]

theorem evolves_runHooks (w : World) (hs : List Hook) :
    Evolves w (runHooks w hs).1 := by
  induction hs generalizing w with
  | nil => exact Evolves.refl w
  | cons h hs ih =>
      exact (evolves_runHook w h).trans (ih (runHook w h).1)

/-- The errors collected by `runHooks` are exactly the non-nil results of the
hooks, in execution order. -/
theorem runHooks_errs (w : World) (hs : List Hook) :
    (runHooks w hs).2 = hs.filterMap Hook.errOf := by
  induction hs generalizing w with
  | nil => rfl
  | cons h hs ih =>
      show (match (runHook w h).2 with
            | none => (runHooks (runHook w h).1 hs).2
            | some x => x :: (runHooks (runHook w h).1 hs).2) = _
      rw [ih]
      cases h with
      | ret e => cases e <;> simp [runHook, Hook.errOf, List.filterMap_cons]
      | probe t e => cases e <;> simp [runHook, Hook.errOf, List.filterMap_cons]

/-- A probe among the executed hooks leaves an observation of its target,
reading the (unchanged) node states the hooks were started in. -/
theorem runHooks_probe_mem (w : World) (hs : List Hook) {t : NodeId} {e : Option Err}
    (h : Hook.probe t e ∈ hs) :
    Event.obs t (w.st t).closingFlag (w.st t).closedFlag ∈ (runHooks w hs).1.log := by
  induction hs generalizing w with
  | nil => simp at h
  | cons h0 hs ih =>
      rcases List.mem_cons.mp h with h1 | h1
      · subst h1
        show Event.obs t _ _ ∈ (runHooks (runHook w (Hook.probe t e)).1 hs).1.log
        have e7 := (evolves_runHooks (runHook w (Hook.probe t e)).1 hs).2.2.2.2.2.2
        obtain ⟨tl, htl, _⟩ := e7
        rw [htl]
        apply List.mem_append.mpr
        left
        show Event.obs t _ _ ∈ (pushEvent w _).log
        rw [pushEvent_log]
        simp
      · show Event.obs t _ _ ∈ (runHooks (runHook w h0).1 hs).1.log
        have := ih (runHook w h0).1 h1
        rwa [runHook_st] at this

end CloserPkg

namespace CloserPkg

/-! ## Evolution across the children loop and across `Close` -/

theorem st_setSt_push (w : World) (e : Event) (n : NodeId) (s : CloserState) (m : NodeId) :
    (setSt (pushEvent w e) n s).st m = if m = n then s else w.st m := by
  by_cases hm : m = n <;> simp [setSt, pushEvent, hm]

theorem st_push_setSt (w : World) (n : NodeId) (s : CloserState) (e : Event) (m : NodeId) :
    (pushEvent (setSt w n s) e).st m = if m = n then s else w.st m := by
  by_cases hm : m = n <;> simp [setSt, pushEvent, hm]

theorem evolves_closeListWith {f : World → NodeId → Option (World × Option (List Err))}
    (hf : ∀ w c r, f w c = some r → Evolves w r.1) :
    ∀ (cs : List NodeId) (w w2 : World), closeListWith f w cs = some w2 → Evolves w w2 := by
  intro cs
  induction cs with
  | nil =>
      intro w w2 h
      simp [closeListWith] at h
      rw [← h]
      exact Evolves.refl w
  | cons c cs ih =>
      intro w w2 h
      simp only [closeListWith] at h
      cases hc : f w c with
      | none => rw [hc] at h; simp at h
      | some r =>
          rw [hc] at h
          exact (hf w c r hc).trans (ih r.1 w2 h)

/-- Assembling `Evolves` across the body of a full (non-short-circuited)
`Close`: the lock, the closing-flag write, an arbitrary evolution `E`
(children loop plus close funcs), the final write of the cleared funcs,
stored error and closed flag, and the unlock. -/
theorem evolves_close_assemble {w w3 : World} {n : NodeId} {s1 : CloserState}
    (hn : (w.st n).closingFlag = false)
    (E : Evolves (setSt (pushEvent w (Event.lock n)) n s1) w3)
    (h1cl : s1.closingFlag = true) (h1cd : s1.closedFlag = (w.st n).closedFlag)
    (h1ce : s1.closeErr = (w.st n).closeErr) (h1f : s1.funcs = (w.st n).funcs)
    (h1p : s1.parent = (w.st n).parent) (h1ch : s1.children = (w.st n).children)
    (h1wg : s1.wgCount = (w.st n).wgCount) (h1tw : s1.twoWay = (w.st n).twoWay)
    (err2 : Option (List Err)) :
    Evolves w (pushEvent (setSt w3 n
      { closingFlag := (w3.st n).closingFlag, closedFlag := true, closeErr := err2,
        funcs := [], parent := (w3.st n).parent, children := (w3.st n).children,
        wgCount := (w3.st n).wgCount, twoWay := (w3.st n).twoWay })
      (Event.unlock n)) := by
  obtain ⟨e1, e2, e3, e4, e5, e6, t, ht, het⟩ := E
  have hA := st_setSt_push w (Event.lock n) n s1
  have hB := st_push_setSt w3 n
    { closingFlag := (w3.st n).closingFlag, closedFlag := true, closeErr := err2,
      funcs := [], parent := (w3.st n).parent, children := (w3.st n).children,
      wgCount := (w3.st n).wgCount, twoWay := (w3.st n).twoWay } (Event.unlock n)
  have hcl3 : (w3.st n).closingFlag = true := e1 n (by rw [hA]; simp [h1cl])
  refine ⟨?_, ?_, ?_, ?_, ?_, ?_, ?_⟩
  · intro m h
    rw [hB]
    by_cases hm : m = n
    · subst hm; rw [hn] at h; exact absurd h (by simp)
    · rw [if_neg hm]
      exact e1 m (by rw [hA, if_neg hm]; exact h)
  · intro m h
    rw [hB]
    by_cases hm : m = n
    · rw [if_pos hm]
    · rw [if_neg hm]
      exact e2 m (by rw [hA, if_neg hm]; exact h)
  · intro m
    rw [hB]
    by_cases hm : m = n
    · subst hm
      rw [if_pos rfl]
      have h3 := e3 m
      rw [hA, if_pos rfl] at h3
      exact ⟨h3.1.trans h1p, h3.2.1.trans h1ch, h3.2.2.1.trans h1tw, h3.2.2.2.trans h1wg⟩
    · rw [if_neg hm]
      have h3 := e3 m
      rw [hA, if_neg hm] at h3
      exact h3
  · intro m h
    rw [hB]
    by_cases hm : m = n
    · subst hm; rw [hn] at h; exact absurd h (by simp)
    · rw [if_neg hm]
      have h4 := e4 m (by rw [hA, if_neg hm]; exact h)
      rw [hA, if_neg hm] at h4
      exact h4
  · intro m h
    rw [hB] at h ⊢
    by_cases hm : m = n
    · subst hm
      rw [if_pos rfl] at h
      exact absurd h (by simp [hcl3])
    · rw [if_neg hm] at h ⊢
      have h5 := e5 m h
      rw [hA, if_neg hm] at h5
      exact h5
  · intro m h
    rw [hB] at h ⊢
    by_cases hm : m = n
    · subst hm
      rw [if_pos rfl]
      exact Or.inr rfl
    · rw [if_neg hm] at h ⊢
      rcases e6 m h with h1 | h1
      · rw [hA, if_neg hm] at h1
        exact Or.inl h1
      · exact Or.inr h1
  · refine ⟨[Event.lock n] ++ t ++ [Event.unlock n], ?_, ?_⟩
    · show (setSt w3 n _).log ++ [Event.unlock n] = _
      rw [setSt_log, ht, setSt_log, pushEvent_log]
      simp
    · intro e he
      simp only [List.append_assoc, List.mem_append, List.mem_singleton] at he
      rcases he with he | he | he
      · subst he; trivial
      · refine ObsTruthful.mono ?_ ?_ (het e he)
        · intro m hm
          rw [hA]
          by_cases hmn : m = n
          · rw [if_pos hmn, h1cl]
          · rw [if_neg hmn]; exact hm
        · intro m hm
          rw [hA]
          by_cases hmn : m = n
          · subst hmn; rw [if_pos rfl, h1cd]; exact hm
          · rw [if_neg hmn]; exact hm
      · subst he; trivial

/-- Every completed `Close` call evolves the world monotonically. -/
theorem closeNode_evolves :
    ∀ (fuel : Nat) (w : World) (n : NodeId) (r : World × Option (List Err)),
      closeNode fuel w n = some r → Evolves w r.1 := by
  intro fuel
  induction fuel with
  | zero => intro w n r h; simp [closeNode] at h
  | succ fuel ih =>
      intro w n r h
      have hf : ∀ (wa : World) (c : NodeId) (ra : World × Option (List Err)),
          closeNode fuel (pushEvent wa (Event.callChild n c)) c = some ra →
          Evolves wa ra.1 := by
        intro wa c ra hra
        exact (evolves_push (by trivial)).trans (ih _ c ra hra)
      simp only [closeNode] at h
      split at h
      · rename_i hcl
        injection h with h
        rw [← h]
        exact (evolves_push (by trivial)).trans (evolves_push (by trivial))
      · rename_i hcl
        have hn : (w.st n).closingFlag = false := by
          simpa using hcl
        split at h
        · exact absurd h (by simp)
        · rename_i w2 hw2
          split at h
          · rename_i hwg
            have E12 := evolves_closeListWith hf _ _ _ hw2
            have E23 := evolves_runHooks w2 ((w2.st n).funcs.reverse)
            repeat' split at h
            all_goals try exact Option.noConfusion h
            all_goals injection h with h
            all_goals rw [← h]
            all_goals first
              | exact evolves_close_assemble hn (E12.trans E23)
                  rfl rfl rfl rfl rfl rfl rfl rfl _
              | (rename_i r5 hr5
                 exact ((evolves_close_assemble hn (E12.trans E23)
                     rfl rfl rfl rfl rfl rfl rfl rfl _).trans
                   (evolves_push (by trivial))).trans (ih _ _ r5 hr5))
          · exact absurd h (by simp)

end CloserPkg

namespace CloserPkg

/-! ## Decomposition of a completed, non-short-circuited `Close` -/

/-- The world reached after a closing node `n` has closed its children
(reaching `w2`), run its close funcs, stored `e2`, set its closed flag and
unlocked. -/
def afterHooks (w2 : World) (n : NodeId) (e2 : Option (List Err)) : World :=
  pushEvent (setSt (runHooks w2 (w2.st n).funcs.reverse).1 n
    { (runHooks w2 (w2.st n).funcs.reverse).1.st n with
      funcs := [], closeErr := e2, closedFlag := true }) (Event.unlock n)

theorem afterHooks_st_self (w2 : World) (n : NodeId) (e2 : Option (List Err)) :
    (afterHooks w2 n e2).st n =
      { (runHooks w2 (w2.st n).funcs.reverse).1.st n with
        funcs := [], closeErr := e2, closedFlag := true } := by
  unfold afterHooks
  rw [st_push_setSt, if_pos rfl]

theorem afterHooks_st_ne (w2 : World) (n : NodeId) (e2 : Option (List Err))
    {p : NodeId} (hp : p ≠ n) :
    (afterHooks w2 n e2).st p = w2.st p := by
  unfold afterHooks
  rw [st_push_setSt, if_neg hp, runHooks_st]

theorem afterHooks_log (w2 : World) (n : NodeId) (e2 : Option (List Err)) :
    (afterHooks w2 n e2).log =
      (runHooks w2 (w2.st n).funcs.reverse).1.log ++ [Event.unlock n] := by
  unfold afterHooks
  rw [pushEvent_log, setSt_log]

/-- Decomposition of one completed `Close` run on a node that was not yet
closing: the children loop completes in some `w2`, the wait-group counter is
zero there, the stored error `ev` is the non-nil hook errors (or the previous
stored error when none), and the run ends either without the upward call (not
two-way, no parent, or parent already closing) or with a completed upward
call. -/
theorem closeNode_run {fuel : Nat} {w : World} {n : NodeId}
    {r : World × Option (List Err)}
    (h : closeNode (fuel + 1) w n = some r) (hn : (w.st n).closingFlag = false) :
    ∃ w2 ev,
      closeListWith (fun wa c => closeNode fuel (pushEvent wa (Event.callChild n c)) c)
          (setSt (pushEvent w (Event.lock n)) n
            { (pushEvent w (Event.lock n)).st n with closingFlag := true })
          ((w.st n).children) = some w2 ∧
      (w2.st n).wgCount = 0 ∧
      ev = (if (runHooks w2 (w2.st n).funcs.reverse).2.isEmpty = true
            then ((runHooks w2 (w2.st n).funcs.reverse).1.st n).closeErr
            else some (runHooks w2 (w2.st n).funcs.reverse).2) ∧
      ((r = (afterHooks w2 n ev, ((afterHooks w2 n ev).st n).closeErr) ∧
        ((w.st n).twoWay = false ∨ (w.st n).parent = none ∨
          ∃ p, (w.st n).parent = some p ∧
            ((afterHooks w2 n ev).st p).closingFlag = true)) ∨
       (∃ p r5, (w.st n).twoWay = true ∧ (w.st n).parent = some p ∧
          ((afterHooks w2 n ev).st p).closingFlag = false ∧
          closeNode fuel (pushEvent (afterHooks w2 n ev) (Event.callParent n p)) p
            = some r5 ∧
          r = (r5.1, (r5.1.st n).closeErr))) := by
  have hn2 : ((pushEvent w (Event.lock n)).st n).closingFlag = false := hn
  have hng : ¬(((pushEvent w (Event.lock n)).st n).closingFlag = true) := by
    simp [hn2]
  simp only [closeNode] at h
  rw [if_neg hng] at h
  split at h
  · exact Option.noConfusion h
  · rename_i w2 hw2
    split at h
    · rename_i hwg
      have E12 := evolves_closeListWith
        (fun wa c ra hra =>
          (evolves_push (by trivial)).trans (closeNode_evolves fuel _ c ra hra))
        _ _ _ hw2
      have hw2tw : (w2.st n).twoWay = (w.st n).twoWay := by
        have hq := (E12.2.2.1 n).2.2.1
        rw [st_setSt_push, if_pos rfl] at hq
        exact hq
      have hw2par : (w2.st n).parent = (w.st n).parent := by
        have hq := (E12.2.2.1 n).1
        rw [st_setSt_push, if_pos rfl] at hq
        exact hq
      have htwS : ∀ e2, ((afterHooks w2 n e2).st n).twoWay = (w.st n).twoWay := by
        intro e2
        rw [afterHooks_st_self]
        show ((runHooks w2 (w2.st n).funcs.reverse).1.st n).twoWay = _
        rw [runHooks_st]
        exact hw2tw
      have hparS : ∀ e2, ((afterHooks w2 n e2).st n).parent = (w.st n).parent := by
        intro e2
        rw [afterHooks_st_self]
        show ((runHooks w2 (w2.st n).funcs.reverse).1.st n).parent = _
        rw [runHooks_st]
        exact hw2par
      generalize hg : (if (runHooks w2 (w2.st n).funcs.reverse).2.isEmpty = true
            then ((runHooks w2 (w2.st n).funcs.reverse).1.st n).closeErr
            else some (runHooks w2 (w2.st n).funcs.reverse).2) = ev at h
      split at h
      · rename_i htw
        split at h
        · rename_i p hpq
          split at h
          · rename_i hclp
            injection h with h
            refine ⟨w2, ev, hw2, hwg, hg.symm,
              Or.inl ⟨h.symm, Or.inr (Or.inr ⟨p, ?_, hclp⟩)⟩⟩
            rw [← hparS ev]
            exact hpq
          · rename_i hclp
            split at h
            · exact Option.noConfusion h
            · rename_i r5 hr5
              injection h with h
              refine ⟨w2, ev, hw2, hwg, hg.symm,
                Or.inr ⟨p, r5, ?_, ?_, ?_, hr5, h.symm⟩⟩
              · rw [← htwS ev]; exact htw
              · rw [← hparS ev]; exact hpq
              · simpa using hclp
        · rename_i hpq
          injection h with h
          refine ⟨w2, ev, hw2, hwg, hg.symm,
            Or.inl ⟨h.symm, Or.inr (Or.inl ?_)⟩⟩
          rw [← hparS ev]
          exact hpq
      · rename_i htw
        injection h with h
        refine ⟨w2, ev, hw2, hwg, hg.symm, Or.inl ⟨h.symm, Or.inl ?_⟩⟩
        rw [← htwS ev]
        simpa using htw
    · exact Option.noConfusion h

end CloserPkg

namespace CloserPkg

/-! ## Derived facts about `Close` -/

theorem afterHooks_closing (w2 : World) (n : NodeId) (e2 : Option (List Err)) :
    ((afterHooks w2 n e2).st n).closingFlag = (w2.st n).closingFlag := by
  rw [afterHooks_st_self]
  show ((runHooks w2 (w2.st n).funcs.reverse).1.st n).closingFlag = _
  rw [runHooks_st]

theorem afterHooks_closed (w2 : World) (n : NodeId) (e2 : Option (List Err)) :
    ((afterHooks w2 n e2).st n).closedFlag = true := by
  rw [afterHooks_st_self]

theorem afterHooks_closeErr (w2 : World) (n : NodeId) (e2 : Option (List Err)) :
    ((afterHooks w2 n e2).st n).closeErr = e2 := by
  rw [afterHooks_st_self]

theorem afterHooks_funcs (w2 : World) (n : NodeId) (e2 : Option (List Err)) :
    ((afterHooks w2 n e2).st n).funcs = [] := by
  rw [afterHooks_st_self]

/-- A `Close` on an already-closing node locks, unlocks, and returns the
stored error unchanged. -/
theorem closeNode_short {fuel : Nat} {w : World} {n : NodeId}
    {r : World × Option (List Err)}
    (h : closeNode (fuel + 1) w n = some r) (hn : (w.st n).closingFlag = true) :
    r = (pushEvent (pushEvent w (Event.lock n)) (Event.unlock n),
         (w.st n).closeErr) := by
  have hn2 : ((pushEvent w (Event.lock n)).st n).closingFlag = true := hn
  simp only [closeNode] at h
  rw [if_pos hn2] at h
  injection h with h
  exact h.symm

/-- `Evolves` for the children loop of a `Close` with inner fuel `fuel`. -/
theorem evolves_children (fuel : Nat) (n : NodeId) :
    ∀ (cs : List NodeId) (w w2 : World),
      closeListWith (fun wa c => closeNode fuel (pushEvent wa (Event.callChild n c)) c)
        w cs = some w2 → Evolves w w2 :=
  evolves_closeListWith
    (fun wa c ra hra =>
      (evolves_push (by trivial)).trans (closeNode_evolves fuel _ c ra hra))

theorem closeNode_closing_after {fuel : Nat} {w : World} {n : NodeId}
    {r : World × Option (List Err)} (h : closeNode fuel w n = some r) :
    (r.1.st n).closingFlag = true := by
  cases fuel with
  | zero => exact absurd h (by simp [closeNode])
  | succ fuel =>
      by_cases hn : (w.st n).closingFlag = true
      · rw [closeNode_short h hn]
        exact hn
      · obtain ⟨w2, ev, hw2, hwg, hev, hor⟩ := closeNode_run h (by simpa using hn)
        have E12 := evolves_children fuel n _ _ _ hw2
        have hw2cl : (w2.st n).closingFlag = true := by
          apply E12.1 n
          rw [st_setSt_push, if_pos rfl]
        rcases hor with ⟨hr, _⟩ | ⟨p, r5, _, _, _, hr5, hr⟩
        · rw [hr]
          show ((afterHooks w2 n ev).st n).closingFlag = true
          rw [afterHooks_closing]
          exact hw2cl
        · rw [hr]
          show (r5.1.st n).closingFlag = true
          apply (closeNode_evolves _ _ _ _ hr5).1 n
          show ((afterHooks w2 n ev).st n).closingFlag = true
          rw [afterHooks_closing]
          exact hw2cl

theorem closeNode_closed_after {fuel : Nat} {w : World} {n : NodeId}
    {r : World × Option (List Err)} (h : closeNode fuel w n = some r)
    (hn : (w.st n).closingFlag = false) : (r.1.st n).closedFlag = true := by
  cases fuel with
  | zero => exact absurd h (by simp [closeNode])
  | succ fuel =>
      obtain ⟨w2, ev, hw2, hwg, hev, hor⟩ := closeNode_run h hn
      rcases hor with ⟨hr, _⟩ | ⟨p, r5, _, _, _, hr5, hr⟩
      · rw [hr]
        exact afterHooks_closed w2 n ev
      · rw [hr]
        show (r5.1.st n).closedFlag = true
        apply (closeNode_evolves _ _ _ _ hr5).2.1 n
        exact afterHooks_closed w2 n ev

theorem closeNode_ret {fuel : Nat} {w : World} {n : NodeId}
    {r : World × Option (List Err)} (h : closeNode fuel w n = some r) :
    r.2 = (r.1.st n).closeErr := by
  cases fuel with
  | zero => exact absurd h (by simp [closeNode])
  | succ fuel =>
      by_cases hn : (w.st n).closingFlag = true
      · rw [closeNode_short h hn]
        rfl
      · obtain ⟨w2, ev, hw2, hwg, hev, hor⟩ := closeNode_run h (by simpa using hn)
        rcases hor with ⟨hr, _⟩ | ⟨p, r5, _, _, _, _, hr⟩ <;> rw [hr]

/-- The wait-group counter must be zero for a fresh `Close` to complete
(the `wg.Wait` step blocks otherwise, and nothing in `Close` changes it). -/
theorem closeNode_wg {fuel : Nat} {w : World} {n : NodeId}
    {r : World × Option (List Err)} (h : closeNode fuel w n = some r)
    (hn : (w.st n).closingFlag = false) : (w.st n).wgCount = 0 := by
  cases fuel with
  | zero => exact absurd h (by simp [closeNode])
  | succ fuel =>
      obtain ⟨w2, ev, hw2, hwg, hev, hor⟩ := closeNode_run h hn
      have E12 := evolves_children fuel n _ _ _ hw2
      have hq := (E12.2.2.1 n).2.2.2
      rw [st_setSt_push, if_pos rfl] at hq
      have hq2 : (w.st n).wgCount = (w2.st n).wgCount := hq.symm
      exact hq2.trans hwg

/-- A second `Close` on an already-closed node changes no node state, runs no
close func, appends only the lock and unlock events, and returns the same
stored error. -/
theorem closeNode_again {fuel g : Nat} {w : World} {n : NodeId}
    {r : World × Option (List Err)} (h : closeNode fuel w n = some r) :
    closeNode (g + 1) r.1 n =
      some ({ r.1 with log := r.1.log ++ [Event.lock n, Event.unlock n] }, r.2) := by
  have hcl : ((pushEvent r.1 (Event.lock n)).st n).closingFlag = true :=
    closeNode_closing_after h
  have hret := closeNode_ret h
  simp only [closeNode]
  rw [if_pos hcl]
  have hw : pushEvent (pushEvent r.1 (Event.lock n)) (Event.unlock n) =
      { r.1 with log := r.1.log ++ [Event.lock n, Event.unlock n] } := by
    simp [pushEvent]
  rw [hw]
  have he : ((pushEvent r.1 (Event.lock n)).st n).closeErr = r.2 := hret.symm
  rw [he]

/-- The error returned by a fresh `Close` is exactly the non-nil errors of
this node's own close funcs, executed in reverse registration order; when all
are nil, the previously stored error (nil for any node built by the API) is
returned unchanged. -/
theorem closeNode_err_formula {fuel : Nat} {w : World} {n : NodeId}
    {r : World × Option (List Err)} (h : closeNode fuel w n = some r)
    (hn : (w.st n).closingFlag = false) :
    r.2 = (if ((w.st n).funcs.reverse.filterMap Hook.errOf).isEmpty = true
           then (w.st n).closeErr
           else some ((w.st n).funcs.reverse.filterMap Hook.errOf)) := by
  cases fuel with
  | zero => exact absurd h (by simp [closeNode])
  | succ fuel =>
      obtain ⟨w2, ev, hw2, hwg, hev, hor⟩ := closeNode_run h hn
      have E12 := evolves_children fuel n _ _ _ hw2
      have hw1cl : ((setSt (pushEvent w (Event.lock n)) n
          { (pushEvent w (Event.lock n)).st n with closingFlag := true }).st n).closingFlag
          = true := by
        rw [st_setSt_push, if_pos rfl]
      have hfn : (w2.st n).funcs = (w.st n).funcs := by
        have hq := (E12.2.2.2.1 n hw1cl).1
        rw [st_setSt_push, if_pos rfl] at hq
        exact hq
      have hen : (w2.st n).closeErr = (w.st n).closeErr := by
        have hq := (E12.2.2.2.1 n hw1cl).2
        rw [st_setSt_push, if_pos rfl] at hq
        exact hq
      have hev2 : ev = (if ((w.st n).funcs.reverse.filterMap Hook.errOf).isEmpty = true
           then (w.st n).closeErr
           else some ((w.st n).funcs.reverse.filterMap Hook.errOf)) := by
        rw [hev, runHooks_errs, runHooks_st, hfn, hen]
      have hr2 : r.2 = ev := by
        rcases hor with ⟨hr, _⟩ | ⟨p, r5, _, _, _, hr5, hr⟩
        · rw [hr]
          exact afterHooks_closeErr w2 n ev
        · rw [hr]
          show (r5.1.st n).closeErr = ev
          have E5 := closeNode_evolves _ _ _ _ hr5
          have hclA : ((pushEvent (afterHooks w2 n ev) (Event.callParent n p)).st n).closingFlag
              = true := by
            show ((afterHooks w2 n ev).st n).closingFlag = true
            rw [afterHooks_closing]
            apply E12.1 n
            exact hw1cl
          have hq := (E5.2.2.2.1 n hclA).2
          rw [hq]
          exact afterHooks_closeErr w2 n ev
      exact hr2.trans hev2

end CloserPkg

namespace CloserPkg

/-! ## Concrete scenarios -/

/-- The initial world: nothing allocated, empty log. -/
def emptyWorld : World := ⟨fun _ => newCloser [], [], 0⟩

/-- One root closer `0`, already fully closed. -/
def c1start : World := (NewC emptyWorld []).1

def c1run : World × Option (List Err) := (closeNode 1 c1start 0).getD (c1start, none)

def c1after : World × NodeId := OneWay c1run.1 0 []

/-! ## Claims -/

/-- C1, counterexample: a root closer `0` is created and fully closed
(`IsClosed` is true); `OneWay` is then called on it.  The claim asserts the
returned child is immediately closed during the append; in the code
`addChild` only appends, so the child is still Open: `IsClosed` and even
`IsClosing` of the child are false. -/
theorem claim_C1_counterexample :
    closeNode 1 c1start 0 = some c1run ∧
    IsClosed c1run.1 0 = true ∧
    c1after.2 = 1 ∧
    IsClosed c1after.1 c1after.2 = false ∧
    IsClosing c1after.1 c1after.2 = false :=
  ⟨rfl, rfl, rfl, rfl, rfl⟩

/-- C1, amended: calling `OneWay`/`TwoWay` (`addChild`) on a parent that is
already Closing or Closed merely appends the new child to the parent's
children list; the child is returned in the Open state (neither closing nor
closed), not closed during the append. -/
theorem claim_C1 (w : World) (p : NodeId) (tw : Bool) (f : List Hook)
    (hcl : IsClosing w p = true) (hp : p ≠ w.next) :
    IsClosed (addChild w p tw f).1 (addChild w p tw f).2 = false ∧
    IsClosing (addChild w p tw f).1 (addChild w p tw f).2 = false ∧
    ((addChild w p tw f).1.st p).children = (w.st p).children ++ [w.next] ∧
    IsClosing (addChild w p tw f).1 p = true := by
  have hq : w.next ≠ p := fun hq2 => hp hq2.symm
  unfold IsClosed IsClosing addChild at *
  refine ⟨?_, ?_, ?_, ?_⟩ <;> simp [setSt, newCloser, hq, hp, hcl]

theorem claim_C1_witness :
    IsClosing c1run.1 0 = true ∧ (0 : NodeId) ≠ c1run.1.next ∧
    (IsClosed (addChild c1run.1 0 false []).1 (addChild c1run.1 0 false []).2 = false ∧
     IsClosing (addChild c1run.1 0 false []).1 (addChild c1run.1 0 false []).2 = false ∧
     ((addChild c1run.1 0 false []).1.st 0).children = (c1run.1.st 0).children ++ [c1run.1.next] ∧
     IsClosing (addChild c1run.1 0 false []).1 0 = true) :=
  ⟨rfl, by decide, claim_C1 c1run.1 0 false [] rfl (by decide)⟩

/-- C2: `Close` is idempotent.  After any completed `Close` returning `r`,
every further `Close` returns the very same error value, leaves every node's
state untouched (so no close func runs again), and only appends the lock and
unlock events of its short-circuit. -/
theorem claim_C2 {fuel g : Nat} {w : World} {n : NodeId}
    {r : World × Option (List Err)} (h : closeNode fuel w n = some r) :
    closeNode (g + 1) r.1 n =
      some ({ r.1 with log := r.1.log ++ [Event.lock n, Event.unlock n] }, r.2) ∧
    ({ r.1 with log := r.1.log ++ [Event.lock n, Event.unlock n] } : World).st = r.1.st :=
  ⟨closeNode_again h, rfl⟩

def c2w : World := OnClose (NewC emptyWorld []).1 0 [Hook.ret (some 5)]

def c2r : World × Option (List Err) := (closeNode 1 c2w 0).getD (c2w, none)

theorem claim_C2_witness :
    closeNode 1 c2w 0 = some c2r ∧ c2r.2 = some [5] ∧
    (closeNode 1 c2r.1 0 =
      some ({ c2r.1 with log := c2r.1.log ++ [Event.lock 0, Event.unlock 0] }, c2r.2) ∧
     ({ c2r.1 with log := c2r.1.log ++ [Event.lock 0, Event.unlock 0] } : World).st = c2r.1.st) := by
  have h : closeNode 1 c2w 0 = some c2r := rfl
  exact ⟨h, rfl, claim_C2 h⟩

/-- C7: on a fresh `Close`, the node's close funcs (those passed to `New`
followed by those appended by `OnClose`) run in reverse registration order
(LIFO); every non-nil error is collected, in that execution order, into the
returned multierror; nil results are skipped; if no hook errs the stored
error (nil) is returned. -/
theorem claim_C7 {fuel : Nat} {w : World} {n : NodeId}
    {r : World × Option (List Err)} (h : closeNode fuel w n = some r)
    (hn : IsClosing w n = false) :
    r.2 = (if ((w.st n).funcs.reverse.filterMap Hook.errOf).isEmpty = true
           then (w.st n).closeErr
           else some ((w.st n).funcs.reverse.filterMap Hook.errOf)) :=
  closeNode_err_formula h hn

def c7w : World :=
  OnClose (NewC emptyWorld [Hook.ret (some 1)]).1 0
    [Hook.ret none, Hook.ret (some 2), Hook.ret (some 3)]

def c7r : World × Option (List Err) := (closeNode 1 c7w 0).getD (c7w, none)

theorem claim_C7_witness :
    IsClosing c7w 0 = false ∧ closeNode 1 c7w 0 = some c7r ∧
    c7r.2 = (if ((c7w.st 0).funcs.reverse.filterMap Hook.errOf).isEmpty = true
             then (c7w.st 0).closeErr
             else some ((c7w.st 0).funcs.reverse.filterMap Hook.errOf)) ∧
    (c7w.st 0).funcs = [Hook.ret (some 1), Hook.ret none, Hook.ret (some 2), Hook.ret (some 3)] ∧
    c7r.2 = some [3, 2, 1] := by
  have h : closeNode 1 c7w 0 = some c7r := rfl
  exact ⟨rfl, h, claim_C7 h rfl, rfl, rfl⟩

/-- C9: `Done` on a node whose wait-group counter is zero is a fatal fault
(modelled `none`, the `sync.WaitGroup` panic), not a recoverable result; and
a successful `Done` never drives the counter below zero. -/
theorem claim_C9 (w : World) (n : NodeId) :
    ((w.st n).wgCount = 0 → Done w n = none) ∧
    (∀ w2, Done w n = some w2 →
      0 ≤ (w2.st n).wgCount ∧ (w2.st n).wgCount = (w.st n).wgCount - 1) := by
  constructor
  · intro h
    unfold Done AddWaitGroup
    rw [h]
    norm_num
  · intro w2 h
    unfold Done AddWaitGroup at h
    split at h
    · exact Option.noConfusion h
    · rename_i hge
      injection h with h
      rw [← h, setSt_st_self]
      constructor
      · show (0 : Int) ≤ (w.st n).wgCount + -1
        omega
      · show (w.st n).wgCount + -1 = (w.st n).wgCount - 1
        ring

theorem claim_C9_witness :
    (emptyWorld.st 0).wgCount = 0 ∧ Done emptyWorld 0 = none :=
  ⟨rfl, (claim_C9 emptyWorld 0).1 rfl⟩

/-- C10: the error returned by a parent's `Close` aggregates only the
parent's own close-func errors: a parent with no close funcs and no stored
error returns nil, no matter what errors its children's closes produced
(they are discarded by `_ = child.Close()`). -/
theorem claim_C10 {fuel : Nat} {w : World} {p : NodeId}
    {r : World × Option (List Err)} (h : closeNode fuel w p = some r)
    (hn : IsClosing w p = false) (hf : (w.st p).funcs = [])
    (he : (w.st p).closeErr = none) :
    r.2 = none := by
  rw [closeNode_err_formula h hn, hf, he]
  simp

def c10w : World := (OneWay (NewC emptyWorld []).1 0 [Hook.ret (some 7)]).1

def c10r : World × Option (List Err) := (closeNode 2 c10w 0).getD (c10w, none)

theorem claim_C10_witness :
    IsClosing c10w 0 = false ∧ (c10w.st 0).funcs = [] ∧
    (c10w.st 0).closeErr = none ∧ closeNode 2 c10w 0 = some c10r ∧
    c10r.2 = none ∧ (c10r.1.st 1).closeErr = some [7] ∧ IsClosed c10r.1 1 = true := by
  have h : closeNode 2 c10w 0 = some c10r := rfl
  exact ⟨rfl, rfl, rfl, h, claim_C10 h rfl rfl rfl, rfl, rfl⟩

end CloserPkg

namespace CloserPkg

/-! ## Well-formedness invariants of API-built worlds -/

/-- Every node that has begun closing has finished: true of every world at
rest (every completed `Close` run drives each node it marks closing all the
way to closed). -/
def Quiescent (w : World) : Prop :=
  ∀ m, (w.st m).closingFlag = true → (w.st m).closedFlag = true

/-- Children have larger ids than their parent (ids are allocation order,
and `addChild` registers the fresh id under the existing node). -/
def IdOrdered (w : World) : Prop :=
  ∀ n c, c ∈ (w.st n).children → n < c

/-- A node's parent reference has a smaller id. -/
def ParentOrdered (w : World) : Prop :=
  ∀ n q, (w.st n).parent = some q → q < n

/-- A node listed as a child has its parent reference set to that node
(`addChild` establishes both sides of the edge). -/
def ParentConsistent (w : World) : Prop :=
  ∀ n c, c ∈ (w.st n).children → (w.st c).parent = some n

/-- After the children loop of a closing node `n`, every child in the list is
fully closed, provided every already-closing child had already finished (true
in quiescent worlds). -/
theorem closeList_children_closed (fuel : Nat) (n : NodeId) :
    ∀ (cs : List NodeId) (w w2 : World),
      closeListWith (fun wa c => closeNode fuel (pushEvent wa (Event.callChild n c)) c)
        w cs = some w2 →
      (∀ c ∈ cs, (w.st c).closingFlag = true → (w.st c).closedFlag = true) →
      ∀ c ∈ cs, (w2.st c).closedFlag = true := by
  intro cs
  induction cs with
  | nil => intro w w2 h hq c hc; simp at hc
  | cons c0 cs ih =>
      intro w w2 h hq c hc
      simp only [closeListWith] at h
      cases hc0 : closeNode fuel (pushEvent w (Event.callChild n c0)) c0 with
      | none => rw [hc0] at h; exact Option.noConfusion h
      | some ra =>
          rw [hc0] at h
          have Ea : Evolves w ra.1 :=
            (evolves_push (by trivial)).trans (closeNode_evolves _ _ _ _ hc0)
          have Eb : Evolves ra.1 w2 := evolves_children fuel n cs ra.1 w2 h
          rcases List.mem_cons.mp hc with hceq | hctail
          · subst hceq
            by_cases hcl : (w.st c).closingFlag = true
            · have hcd : (w.st c).closedFlag = true := hq c (List.mem_cons_self _ _) hcl
              exact Eb.2.1 c (Ea.2.1 c hcd)
            · have hcd : (ra.1.st c).closedFlag = true :=
                closeNode_closed_after hc0 (by simpa using hcl)
              exact Eb.2.1 c hcd
          · apply ih ra.1 w2 h _ c hctail
            intro c2 hc2 hc2cl
            rcases Ea.2.2.2.2.2.1 c2 hc2cl with h1 | h1
            · exact Ea.2.1 c2 (hq c2 (List.mem_cons_of_mem _ hc2) h1)
            · exact h1

/-- C4: for a parent `p` in a quiescent well-ordered world, a completed fresh
`Close` leaves every child of `p` fully closed at return; it can only have
completed with a drained (zero) wait-group counter; `p` itself is fully
closed at return; and every observation of `p` recorded during the run (in
particular those made by the children's close funcs) saw `IsClosing p` true
already. -/
theorem claim_C4 {fuel : Nat} {w : World} {p : NodeId}
    {r : World × Option (List Err)} (h : closeNode fuel w p = some r)
    (hq : Quiescent w) (hio : IdOrdered w) (hn : IsClosing w p = false) :
    (∀ c ∈ (w.st p).children, IsClosed r.1 c = true) ∧
    (w.st p).wgCount = 0 ∧ IsClosed r.1 p = true ∧
    (∃ t, r.1.log = w.log ++ t ∧ ∀ cg cd, Event.obs p cg cd ∈ t → cg = true) := by
  cases fuel with
  | zero => exact absurd h (by simp [closeNode])
  | succ fuel =>
      have hn2 : (w.st p).closingFlag = false := hn
      obtain ⟨w2, ev, hw2, hwg, hev, hor⟩ := closeNode_run h hn2
      have E12 := evolves_children fuel p _ _ _ hw2
      have hw1cl : ((setSt (pushEvent w (Event.lock p)) p
          { (pushEvent w (Event.lock p)).st p with closingFlag := true }).st p).closingFlag
          = true := by
        rw [st_setSt_push, if_pos rfl]
      have hw2cl : (w2.st p).closingFlag = true := E12.1 p hw1cl
      have hchld : ∀ c ∈ (w.st p).children, (w2.st c).closedFlag = true := by
        apply closeList_children_closed fuel p _ _ _ hw2
        intro c hc hcl
        have hcp : c ≠ p := (hio p c hc).ne'
        rw [st_setSt_push, if_neg hcp] at hcl ⊢
        exact hq c hcl
      have hchR : ∀ c ∈ (w.st p).children, (r.1.st c).closedFlag = true := by
        intro c hc
        have hcp : c ≠ p := (hio p c hc).ne'
        have h2 := hchld c hc
        rcases hor with ⟨hr, _⟩ | ⟨q, r5, _, _, _, hr5, hr⟩
        · rw [hr]
          show ((afterHooks w2 p ev).st c).closedFlag = true
          rw [afterHooks_st_ne _ _ _ hcp]
          exact h2
        · rw [hr]
          show (r5.1.st c).closedFlag = true
          apply (closeNode_evolves _ _ _ _ hr5).2.1 c
          show ((afterHooks w2 p ev).st c).closedFlag = true
          rw [afterHooks_st_ne _ _ _ hcp]
          exact h2
      refine ⟨hchR, closeNode_wg h hn2, closeNode_closed_after h hn2, ?_⟩
      obtain ⟨t1, ht1, he1⟩ := E12.2.2.2.2.2.2
      obtain ⟨t2, ht2, he2⟩ :=
        (evolves_runHooks w2 ((w2.st p).funcs.reverse)).2.2.2.2.2.2
      have hw1log : (setSt (pushEvent w (Event.lock p)) p
          { (pushEvent w (Event.lock p)).st p with closingFlag := true }).log
          = w.log ++ [Event.lock p] := rfl
      rw [hw1log] at ht1
      have haflog : (afterHooks w2 p ev).log =
          w.log ++ ([Event.lock p] ++ t1 ++ t2 ++ [Event.unlock p]) := by
        rw [afterHooks_log, ht2, ht1]
        simp
      have hafcl : ((afterHooks w2 p ev).st p).closingFlag = true := by
        rw [afterHooks_closing]
        exact hw2cl
      rcases hor with ⟨hr, _⟩ | ⟨q, r5, _, _, _, hr5, hr⟩
      · rw [hr]
        refine ⟨[Event.lock p] ++ t1 ++ t2 ++ [Event.unlock p], haflog, ?_⟩
        intro cg cd hmem
        simp only [List.append_assoc, List.mem_append, List.mem_singleton] at hmem
        rcases hmem with h1 | h1 | h1 | h1
        · exact absurd h1 (by simp)
        · exact (he1 _ h1).1 hw1cl
        · exact (he2 _ h1).1 hw2cl
        · exact absurd h1 (by simp)
      · rw [hr]
        obtain ⟨t3, ht3, he3⟩ := (closeNode_evolves _ _ _ _ hr5).2.2.2.2.2.2
        rw [pushEvent_log, haflog] at ht3
        refine ⟨[Event.lock p] ++ t1 ++ t2 ++ [Event.unlock p] ++
          [Event.callParent p q] ++ t3, ?_, ?_⟩
        · rw [ht3]
          simp
        · intro cg cd hmem
          simp only [List.append_assoc, List.mem_append, List.mem_singleton] at hmem
          rcases hmem with h1 | h1 | h1 | h1 | h1 | h1
          · exact absurd h1 (by simp)
          · exact (he1 _ h1).1 hw1cl
          · exact (he2 _ h1).1 hw2cl
          · exact absurd h1 (by simp)
          · exact absurd h1 (by simp)
          · exact (he3 _ h1).1 hafcl

end CloserPkg

namespace CloserPkg

/-! ## A concrete two-node world for witnesses -/

/-- Parent `0` with a single child `1` (relationship kind `tw`), with the
given close-func lists and an empty log. -/
def twoNodeWorld (tw : Bool) (pf cf : List Hook) : World :=
  ⟨fun m => if m = 0 then { newCloser pf with children := [1] }
            else if m = 1 then { newCloser cf with parent := some 0, twoWay := tw }
            else newCloser [],
   [], 2⟩

theorem twoNodeWorld_quiescent (tw : Bool) (pf cf : List Hook) :
    Quiescent (twoNodeWorld tw pf cf) := by
  intro m hm
  by_cases h0 : m = 0 <;> by_cases h1 : m = 1 <;>
    simp [twoNodeWorld, newCloser, h0, h1] at hm

theorem twoNodeWorld_idOrdered (tw : Bool) (pf cf : List Hook) :
    IdOrdered (twoNodeWorld tw pf cf) := by
  intro n c hc
  by_cases h0 : n = 0
  · subst h0
    simp [twoNodeWorld, newCloser] at hc
    subst hc
    decide
  · by_cases h1 : n = 1 <;> simp [twoNodeWorld, newCloser, h0, h1] at hc

theorem twoNodeWorld_parentOrdered (tw : Bool) (pf cf : List Hook) :
    ParentOrdered (twoNodeWorld tw pf cf) := by
  intro n q hq
  by_cases h0 : n = 0
  · subst h0
    simp [twoNodeWorld, newCloser] at hq
  · by_cases h1 : n = 1
    · subst h1
      simp [twoNodeWorld, newCloser] at hq
      subst hq
      decide
    · simp [twoNodeWorld, newCloser, h0, h1] at hq

theorem twoNodeWorld_parentConsistent (tw : Bool) (pf cf : List Hook) :
    ParentConsistent (twoNodeWorld tw pf cf) := by
  intro n c hc
  by_cases h0 : n = 0
  · subst h0
    simp [twoNodeWorld, newCloser] at hc
    subst hc
    simp [twoNodeWorld, newCloser]
  · by_cases h1 : n = 1 <;> simp [twoNodeWorld, newCloser, h0, h1] at hc

def c4w : World := twoNodeWorld false [] [Hook.probe 0 none]

def c4r : World × Option (List Err) := (closeNode 2 c4w 0).getD (c4w, none)

theorem claim_C4_witness :
    Quiescent c4w ∧ IdOrdered c4w ∧ IsClosing c4w 0 = false ∧
    closeNode 2 c4w 0 = some c4r ∧
    ((∀ c ∈ (c4w.st 0).children, IsClosed c4r.1 c = true) ∧
     (c4w.st 0).wgCount = 0 ∧ IsClosed c4r.1 0 = true ∧
     (∃ t, c4r.1.log = c4w.log ++ t ∧
       ∀ cg cd, Event.obs 0 cg cd ∈ t → cg = true)) := by
  have h : closeNode 2 c4w 0 = some c4r := rfl
  exact ⟨twoNodeWorld_quiescent false [] [Hook.probe 0 none],
    twoNodeWorld_idOrdered false [] [Hook.probe 0 none], rfl, h,
    claim_C4 h (twoNodeWorld_quiescent false [] [Hook.probe 0 none])
      (twoNodeWorld_idOrdered false [] [Hook.probe 0 none]) rfl⟩

/-! ## C3 -/

def c3w : World := OnClose (OneWay (NewC emptyWorld []).1 0 []).1 0 [Hook.probe 1 none]

def c3r : World × Option (List Err) := (closeNode 2 c3w 0).getD (c3w, none)

/-- C3, counterexample: parent `0` with one-way child `1` and a single close
func probing the child.  The claim says the parent's hooks run strictly
before the child's `Close` is invoked, so the probe would have to observe the
child not yet closing; the recorded trace shows the opposite: the child is
locked, closed and unlocked first, and the parent's hook then observes the
child already fully closed (`Event.obs 1 true true`). -/
theorem claim_C3_counterexample :
    IsClosing c3w 1 = false ∧ IsClosed c3w 1 = false ∧
    (c3w.st 0).children = [1] ∧
    (c3w.st 0).funcs = [Hook.probe 1 none] ∧
    closeNode 2 c3w 0 = some c3r ∧
    c3r.1.log = [Event.lock 0, Event.callChild 0 1, Event.lock 1, Event.unlock 1,
      Event.obs 1 true true, Event.unlock 0] :=
  ⟨rfl, rfl, rfl, rfl, rfl, rfl⟩

/-- C3, amended: within one execution of `Close` on a parent, the children's
`Close` calls are made (and complete, leaving every child fully closed)
strictly before the parent's close funcs run; consequently a parent close
func probing a child observes the child already Closed. -/
theorem claim_C3 {fuel : Nat} {w : World} {p : NodeId}
    {r : World × Option (List Err)} (h : closeNode fuel w p = some r)
    (hq : Quiescent w) (hio : IdOrdered w) (hn : IsClosing w p = false)
    {c : NodeId} (hc : c ∈ (w.st p).children) {e0 : Option Err}
    (hpr : Hook.probe c e0 ∈ (w.st p).funcs) (hlog : w.log = []) :
    IsClosed r.1 c = true ∧ ∃ cg, Event.obs c cg true ∈ r.1.log := by
  cases fuel with
  | zero => exact absurd h (by simp [closeNode])
  | succ fuel =>
      have hn2 : (w.st p).closingFlag = false := hn
      obtain ⟨w2, ev, hw2, hwg, hev, hor⟩ := closeNode_run h hn2
      have E12 := evolves_children fuel p _ _ _ hw2
      have hw1cl : ((setSt (pushEvent w (Event.lock p)) p
          { (pushEvent w (Event.lock p)).st p with closingFlag := true }).st p).closingFlag
          = true := by
        rw [st_setSt_push, if_pos rfl]
      have hchld : ∀ c2 ∈ (w.st p).children, (w2.st c2).closedFlag = true := by
        apply closeList_children_closed fuel p _ _ _ hw2
        intro c2 hc2 hcl
        have hcp : c2 ≠ p := (hio p c2 hc2).ne'
        rw [st_setSt_push, if_neg hcp] at hcl ⊢
        exact hq c2 hcl
      have hcp : c ≠ p := (hio p c hc).ne'
      have hcd2 : (w2.st c).closedFlag = true := hchld c hc
      have hfn : (w2.st p).funcs = (w.st p).funcs := by
        have hq2 := (E12.2.2.2.1 p hw1cl).1
        rw [st_setSt_push, if_pos rfl] at hq2
        exact hq2
      have hmem : Event.obs c (w2.st c).closingFlag (w2.st c).closedFlag ∈
          (runHooks w2 ((w2.st p).funcs.reverse)).1.log := by
        apply runHooks_probe_mem
        rw [hfn]
        exact List.mem_reverse.mpr hpr
      rw [hcd2] at hmem
      constructor
      · have hcp2 : c ≠ p := hcp
        rcases hor with ⟨hr, _⟩ | ⟨q, r5, _, _, _, hr5, hr⟩
        · rw [hr]
          show ((afterHooks w2 p ev).st c).closedFlag = true
          rw [afterHooks_st_ne _ _ _ hcp2]
          exact hcd2
        · rw [hr]
          show (r5.1.st c).closedFlag = true
          apply (closeNode_evolves _ _ _ _ hr5).2.1 c
          show ((afterHooks w2 p ev).st c).closedFlag = true
          rw [afterHooks_st_ne _ _ _ hcp2]
          exact hcd2
      · refine ⟨(w2.st c).closingFlag, ?_⟩
        have hmem3 : Event.obs c (w2.st c).closingFlag true ∈ (afterHooks w2 p ev).log := by
          rw [afterHooks_log]
          exact List.mem_append_left _ hmem
        rcases hor with ⟨hr, _⟩ | ⟨q, r5, _, _, _, hr5, hr⟩
        · rw [hr]
          exact hmem3
        · rw [hr]
          obtain ⟨t3, ht3, _⟩ := (closeNode_evolves _ _ _ _ hr5).2.2.2.2.2.2
          rw [ht3, pushEvent_log]
          exact List.mem_append_left _ (List.mem_append_left _ hmem3)

def c3ww : World := twoNodeWorld false [Hook.probe 1 none] []

def c3rr : World × Option (List Err) := (closeNode 2 c3ww 0).getD (c3ww, none)

theorem claim_C3_witness :
    Quiescent c3ww ∧ IdOrdered c3ww ∧ IsClosing c3ww 0 = false ∧
    (1 : NodeId) ∈ (c3ww.st 0).children ∧
    Hook.probe 1 none ∈ (c3ww.st 0).funcs ∧ c3ww.log = [] ∧
    closeNode 2 c3ww 0 = some c3rr ∧
    (IsClosed c3rr.1 1 = true ∧ ∃ cg, Event.obs 1 cg true ∈ c3rr.1.log) := by
  have h : closeNode 2 c3ww 0 = some c3rr := rfl
  have hc : (1 : NodeId) ∈ (c3ww.st 0).children := by decide
  have hpr : Hook.probe 1 none ∈ (c3ww.st 0).funcs := by decide
  exact ⟨twoNodeWorld_quiescent false [Hook.probe 1 none] [],
    twoNodeWorld_idOrdered false [Hook.probe 1 none] [],
    rfl, hc, hpr, rfl, h,
    claim_C3 h (twoNodeWorld_quiescent false [Hook.probe 1 none] [])
      (twoNodeWorld_idOrdered false [Hook.probe 1 none] []) rfl
      hc hpr rfl⟩

end CloserPkg

namespace CloserPkg

set_option linter.unusedVariables false

/-! ## Localisation of the closing flag -/

theorem closerState_eq {a b : CloserState}
    (h1 : a.closingFlag = b.closingFlag) (h2 : a.closedFlag = b.closedFlag)
    (h3 : a.closeErr = b.closeErr) (h4 : a.funcs = b.funcs)
    (h5 : a.parent = b.parent) (h6 : a.children = b.children)
    (h7 : a.wgCount = b.wgCount) (h8 : a.twoWay = b.twoWay) : a = b := by
  cases a; cases b; simp_all

theorem parentConsistent_evolves {w w2 : World} (E : Evolves w w2)
    (h : ParentConsistent w) : ParentConsistent w2 := by
  intro n c hc
  rw [(E.2.2.1 c).1]
  apply h n c
  rw [← (E.2.2.1 n).2.1]
  exact hc

theorem idOrdered_evolves {w w2 : World} (E : Evolves w w2)
    (h : IdOrdered w) : IdOrdered w2 := by
  intro n c hc
  apply h n c
  rw [← (E.2.2.1 n).2.1]
  exact hc

theorem parentConsistent_start (w : World) (x : NodeId) (h : ParentConsistent w) :
    ParentConsistent (setSt (pushEvent w (Event.lock x)) x
      { (pushEvent w (Event.lock x)).st x with closingFlag := true }) := by
  intro a b hb
  rw [st_setSt_push] at hb ⊢
  by_cases hax : a = x
  · rw [if_pos hax] at hb
    subst hax
    have hb2 : b ∈ (w.st a).children := hb
    have hfact := h a b hb2
    by_cases hbx : b = a
    · rw [if_pos hbx]
      show (w.st a).parent = some a
      exact hbx ▸ hfact
    · rw [if_neg hbx]
      exact hfact
  · rw [if_neg hax] at hb
    have hfact := h a b hb
    by_cases hbx : b = x
    · rw [if_pos hbx]
      show (w.st x).parent = some a
      exact hbx ▸ hfact
    · rw [if_neg hbx]
      exact hfact

theorem idOrdered_start (w : World) (x : NodeId) (h : IdOrdered w) :
    IdOrdered (setSt (pushEvent w (Event.lock x)) x
      { (pushEvent w (Event.lock x)).st x with closingFlag := true }) := by
  intro a b hb
  rw [st_setSt_push] at hb
  by_cases hax : a = x
  · rw [if_pos hax] at hb
    subst hax
    exact h a b hb
  · rw [if_neg hax] at hb
    exact h a b hb

/-- Children loop version: while node `n` is closing and every node in the
list is a child of `n` (with a larger id), every node that becomes closing
during the loop has id larger than `n` — in particular the loop never touches
`n`'s parent.  The per-node induction hypothesis is the statement of
`closing_localized` at the inner fuel. -/
theorem closing_localized_list (fuel : Nat)
    (IH : ∀ {w : World} {x : NodeId} {r : World × Option (List Err)},
      ParentConsistent w → IdOrdered w → closeNode fuel w x = some r →
      ((w.st x).twoWay = false ∨
        ∀ q, (w.st x).parent = some q → (w.st q).closingFlag = true) →
      ∀ m, (r.1.st m).closingFlag = true → (w.st m).closingFlag = true ∨ x ≤ m)
    (n : NodeId) :
    ∀ (cs : List NodeId) (w w2 : World), ParentConsistent w → IdOrdered w →
      (∀ c ∈ cs, n < c ∧ (w.st c).parent = some n) →
      (w.st n).closingFlag = true →
      closeListWith (fun wa c => closeNode fuel (pushEvent wa (Event.callChild n c)) c)
        w cs = some w2 →
      ∀ m, (w2.st m).closingFlag = true → (w.st m).closingFlag = true ∨ n < m := by
  intro cs
  induction cs with
  | nil =>
      intro w w2 _ _ _ _ h m hm
      simp [closeListWith] at h
      subst h
      exact Or.inl hm
  | cons c0 cs ihl =>
      intro w w2 hpc hio hcs hncl h m hm
      simp only [closeListWith] at h
      cases hc0 : closeNode fuel (pushEvent w (Event.callChild n c0)) c0 with
      | none => rw [hc0] at h; exact Option.noConfusion h
      | some ra =>
          rw [hc0] at h
          have Ea : Evolves w ra.1 :=
            (evolves_push (by trivial)).trans (closeNode_evolves _ _ _ _ hc0)
          have hparent2 : ∀ c ∈ cs, n < c ∧ (ra.1.st c).parent = some n := by
            intro c hc
            refine ⟨(hcs c (List.mem_cons_of_mem _ hc)).1, ?_⟩
            rw [(Ea.2.2.1 c).1]
            exact (hcs c (List.mem_cons_of_mem _ hc)).2
          have hncl2 : (ra.1.st n).closingFlag = true := Ea.1 n hncl
          have hup0 : ((w.st c0).twoWay = false ∨
              ∀ q, (w.st c0).parent = some q → (w.st q).closingFlag = true) := by
            right
            intro q hq
            rw [(hcs c0 (List.mem_cons_self _ _)).2] at hq
            injection hq with hq
            rw [← hq]
            exact hncl
          have hpcP : ParentConsistent (pushEvent w (Event.callChild n c0)) := hpc
          have hioP : IdOrdered (pushEvent w (Event.callChild n c0)) := hio
          have hup0P : (((pushEvent w (Event.callChild n c0)).st c0).twoWay = false ∨
              ∀ q, ((pushEvent w (Event.callChild n c0)).st c0).parent = some q →
                ((pushEvent w (Event.callChild n c0)).st q).closingFlag = true) := hup0
          rcases ihl ra.1 w2 (parentConsistent_evolves Ea hpc) (idOrdered_evolves Ea hio)
            hparent2 hncl2 h m hm with h1 | h1
          · rcases IH hpcP hioP hc0 hup0P m h1 with h2 | h2
            · exact Or.inl h2
            · exact Or.inr (Nat.lt_of_lt_of_le (hcs c0 (List.mem_cons_self _ _)).1 h2)
          · exact Or.inr h1

/-- A completed `Close` on `x` that cannot propagate upward (one-way, or
parent already closing) only ever sets the closing flag of nodes with id at
least `x`: nodes below `x` — in particular `x`'s parent — are untouched. -/
theorem closing_localized :
    ∀ (fuel : Nat) {w : World} {x : NodeId} {r : World × Option (List Err)},
      ParentConsistent w → IdOrdered w → closeNode fuel w x = some r →
      ((w.st x).twoWay = false ∨
        ∀ q, (w.st x).parent = some q → (w.st q).closingFlag = true) →
      ∀ m, (r.1.st m).closingFlag = true → (w.st m).closingFlag = true ∨ x ≤ m := by
  intro fuel
  induction fuel with
  | zero =>
      intro w x r _ _ h _ m _
      exact absurd h (by simp [closeNode])
  | succ fuel ih =>
      intro w x r hpc hio h hup m hm
      by_cases hx : (w.st x).closingFlag = true
      · left
        rw [closeNode_short h hx] at hm
        exact hm
      · have hxf : (w.st x).closingFlag = false := by simpa using hx
        obtain ⟨w2, ev, hw2, hwg, hev, hor⟩ := closeNode_run h hxf
        have E12 := evolves_children fuel x _ _ _ hw2
        have hW1x : ((setSt (pushEvent w (Event.lock x)) x
            { (pushEvent w (Event.lock x)).st x with closingFlag := true }).st x).closingFlag
            = true := by
          rw [st_setSt_push, if_pos rfl]
        have hconds : ∀ d ∈ (w.st x).children, x < d ∧
            ((setSt (pushEvent w (Event.lock x)) x
              { (pushEvent w (Event.lock x)).st x with closingFlag := true }).st d).parent
              = some x := by
          intro d hd
          refine ⟨hio x d hd, ?_⟩
          rw [st_setSt_push, if_neg (hio x d hd).ne']
          exact hpc x d hd
        have hlist := closing_localized_list fuel (fun hpc2 hio2 h2 hup2 => ih hpc2 hio2 h2 hup2)
          x ((w.st x).children) _ w2 (parentConsistent_start w x hpc) (idOrdered_start w x hio)
          hconds hW1x hw2
        rcases hor with ⟨hr, _⟩ | ⟨q, r5, htw', hpq', hclq, hr5, hr⟩
        · rw [hr] at hm
          by_cases hmx : m = x
          · exact Or.inr hmx.ge
          · have hm2 : ((afterHooks w2 x ev).st m).closingFlag = true := hm
            rw [afterHooks_st_ne _ _ _ hmx] at hm2
            rcases hlist m hm2 with h1 | h1
            · rw [st_setSt_push, if_neg hmx] at h1
              exact Or.inl h1
            · exact Or.inr (le_of_lt h1)
        · exfalso
          rcases hup with h1 | h1
          · rw [htw'] at h1
            exact absurd h1 (by simp)
          · have hqcl := h1 q hpq'
            have hqx : q ≠ x := by
              intro hqe
              rw [hqe, hxf] at hqcl
              exact absurd hqcl (by simp)
            have hq1 : ((setSt (pushEvent w (Event.lock x)) x
                { (pushEvent w (Event.lock x)).st x with closingFlag := true }).st q).closingFlag
                = true := by
              rw [st_setSt_push, if_neg hqx]
              exact hqcl
            have hq2 : (w2.st q).closingFlag = true := E12.1 q hq1
            have hq3 : ((afterHooks w2 x ev).st q).closingFlag = true := by
              rw [afterHooks_st_ne _ _ _ hqx]
              exact hq2
            rw [hq3] at hclq
            exact absurd hclq (by simp)

end CloserPkg

namespace CloserPkg

/-- C6: closing a one-way child leaves the parent completely untouched — its
entire state record (flags, funcs, stored error, wait-group counter,
relationships) after the child's `Close` equals its state before; in
particular `IsClosing` and `IsClosed` of the parent are unchanged and the
parent's close funcs have not run (its funcs list is not consumed). -/
theorem claim_C6 {fuel : Nat} {w : World} {c : NodeId}
    {r : World × Option (List Err)} (h : closeNode fuel w c = some r)
    (hpc : ParentConsistent w) (hio : IdOrdered w) (hpo : ParentOrdered w)
    (htw : (w.st c).twoWay = false) {p : NodeId} (hp : (w.st c).parent = some p)
    (hpn : IsClosing w p = false) :
    r.1.st p = w.st p ∧ IsClosing r.1 p = false ∧ IsClosed r.1 p = IsClosed w p := by
  have hplt : p < c := hpo c p hp
  have hpn2 : (w.st p).closingFlag = false := hpn
  have hnp : (r.1.st p).closingFlag = true → False := by
    intro hm
    rcases closing_localized fuel hpc hio h (Or.inl htw) p hm with h1 | h1
    · rw [hpn2] at h1
      exact absurd h1 (by simp)
    · exact absurd (Nat.lt_of_lt_of_le hplt h1) (Nat.lt_irrefl p)
  have hnp2 : (r.1.st p).closingFlag = false := by
    cases hb : (r.1.st p).closingFlag
    · rfl
    · exact (hnp hb).elim
  have E := closeNode_evolves fuel w c r h
  have E5 := E.2.2.2.2.1 p hnp2
  have E3 := E.2.2.1 p
  refine ⟨closerState_eq E5.2.2.2 E5.2.2.1 E5.2.1 E5.1 E3.1 E3.2.1 E3.2.2.2 E3.2.2.1,
    hnp2, E5.2.2.1⟩

def c6w : World := twoNodeWorld false [Hook.ret (some 9)] [Hook.ret (some 3)]

def c6r : World × Option (List Err) := (closeNode 1 c6w 1).getD (c6w, none)

theorem claim_C6_witness :
    ParentConsistent c6w ∧ IdOrdered c6w ∧ ParentOrdered c6w ∧
    (c6w.st 1).twoWay = false ∧ (c6w.st 1).parent = some 0 ∧
    IsClosing c6w 0 = false ∧ closeNode 1 c6w 1 = some c6r ∧
    (c6r.1.st 0 = c6w.st 0 ∧ IsClosing c6r.1 0 = false ∧
     IsClosed c6r.1 0 = IsClosed c6w 0) ∧
    IsClosed c6r.1 1 = true ∧ c6r.2 = some [3] := by
  have h : closeNode 1 c6w 1 = some c6r := rfl
  have hp : (c6w.st 1).parent = some 0 := by decide
  have htw : (c6w.st 1).twoWay = false := by decide
  exact ⟨twoNodeWorld_parentConsistent false [Hook.ret (some 9)] [Hook.ret (some 3)],
    twoNodeWorld_idOrdered false [Hook.ret (some 9)] [Hook.ret (some 3)],
    twoNodeWorld_parentOrdered false [Hook.ret (some 9)] [Hook.ret (some 3)],
    htw, hp, rfl, h,
    claim_C6 h (twoNodeWorld_parentConsistent false [Hook.ret (some 9)] [Hook.ret (some 3)])
      (twoNodeWorld_idOrdered false [Hook.ret (some 9)] [Hook.ret (some 3)])
      (twoNodeWorld_parentOrdered false [Hook.ret (some 9)] [Hook.ret (some 3)])
      htw hp rfl,
    rfl, rfl⟩

end CloserPkg

namespace CloserPkg

/-- C5: closing a two-way child `c` whose parent `p` is not yet closing
drives the parent fully Closed as well, the child itself is fully Closed,
and a parent close func probing the child (run during the upward-propagated
close) observes the child already Closed. -/
theorem claim_C5 {fuel : Nat} {w : World} {c : NodeId}
    {r : World × Option (List Err)} (h : closeNode fuel w c = some r)
    (hpc : ParentConsistent w) (hio : IdOrdered w) (hpo : ParentOrdered w)
    (htw : (w.st c).twoWay = true) {p : NodeId} (hp : (w.st c).parent = some p)
    (hcn : IsClosing w c = false) (hpn : IsClosing w p = false)
    {e0 : Option Err} (hpr : Hook.probe c e0 ∈ (w.st p).funcs)
    (hlog : w.log = []) :
    IsClosed r.1 p = true ∧ IsClosed r.1 c = true ∧
    ∃ cg, Event.obs c cg true ∈ r.1.log := by
  cases fuel with
  | zero => exact absurd h (by simp [closeNode])
  | succ fuel =>
      have hcn2 : (w.st c).closingFlag = false := hcn
      have hpn2 : (w.st p).closingFlag = false := hpn
      have hplt : p < c := hpo c p hp
      obtain ⟨w2, ev, hw2, hwg, hev, hor⟩ := closeNode_run h hcn2
      have E12 := evolves_children fuel c _ _ _ hw2
      have hW1c : ((setSt (pushEvent w (Event.lock c)) c
          { (pushEvent w (Event.lock c)).st c with closingFlag := true }).st c).closingFlag
          = true := by
        rw [st_setSt_push, if_pos rfl]
      have hconds : ∀ d ∈ (w.st c).children, c < d ∧
          ((setSt (pushEvent w (Event.lock c)) c
            { (pushEvent w (Event.lock c)).st c with closingFlag := true }).st d).parent
            = some c := by
        intro d hd
        refine ⟨hio c d hd, ?_⟩
        rw [st_setSt_push, if_neg (hio c d hd).ne']
        exact hpc c d hd
      have hlist := closing_localized_list fuel
        (fun hpc2 hio2 h2 hup2 => closing_localized fuel hpc2 hio2 h2 hup2)
        c ((w.st c).children) _ w2 (parentConsistent_start w c hpc)
        (idOrdered_start w c hio) hconds hW1c hw2
      have hpn3 : (w2.st p).closingFlag = false := by
        cases hb : (w2.st p).closingFlag with
        | false => rfl
        | true =>
            rcases hlist p hb with h1 | h1
            · rw [st_setSt_push, if_neg hplt.ne] at h1
              rw [hpn2] at h1
              exact absurd h1 (by simp)
            · exact absurd (Nat.lt_trans hplt h1) (Nat.lt_irrefl p)
      rcases hor with ⟨hr, hside⟩ | ⟨q, r5, htw5, hpq5, hclq5, hr5, hr⟩
      · exfalso
        rcases hside with h1 | h1 | ⟨q, hq1, hq2⟩
        · rw [htw] at h1
          exact absurd h1 (by simp)
        · rw [hp] at h1
          exact Option.noConfusion h1
        · rw [hp] at hq1
          injection hq1 with hq1
          subst hq1
          rw [afterHooks_st_ne w2 c ev hplt.ne] at hq2
          rw [hq2] at hpn3
          exact absurd hpn3 (by simp)
      · rw [hp] at hpq5
        injection hpq5 with hpq5
        subst hpq5
        have hW4cl : ((pushEvent (afterHooks w2 c ev) (Event.callParent c p)).st p).closingFlag
            = false := hclq5
        refine ⟨?_, ?_, ?_⟩
        · rw [hr]
          show (r5.1.st p).closedFlag = true
          exact closeNode_closed_after hr5 hW4cl
        · rw [hr]
          show (r5.1.st c).closedFlag = true
          apply (closeNode_evolves _ _ _ _ hr5).2.1 c
          show ((afterHooks w2 c ev).st c).closedFlag = true
          exact afterHooks_closed w2 c ev
        · have hfp2 : (w2.st p).funcs = (w.st p).funcs := by
            have hq := (E12.2.2.2.2.1 p hpn3).1
            rw [st_setSt_push, if_neg hplt.ne] at hq
            exact hq
          cases fuel with
          | zero => exact absurd hr5 (by simp [closeNode])
          | succ fuel2 =>
              obtain ⟨w2p, evp, hw2p, hwgp, hevp, horp⟩ := closeNode_run hr5 hW4cl
              have E12p := evolves_children fuel2 p _ _ _ hw2p
              have hW1pcl : ((setSt (pushEvent (pushEvent (afterHooks w2 c ev)
                  (Event.callParent c p)) (Event.lock p)) p
                  { (pushEvent (pushEvent (afterHooks w2 c ev) (Event.callParent c p))
                    (Event.lock p)).st p with closingFlag := true }).st p).closingFlag
                  = true := by
                rw [st_setSt_push, if_pos rfl]
              have hq4 := (E12p.2.2.2.1 p hW1pcl).1
              rw [st_setSt_push, if_pos rfl] at hq4
              have hq2f : (w2p.st p).funcs = ((afterHooks w2 c ev).st p).funcs := hq4
              rw [afterHooks_st_ne w2 c ev hplt.ne] at hq2f
              have hfp3 : (w2p.st p).funcs = (w.st p).funcs := hq2f.trans hfp2
              have hprR : Hook.probe c e0 ∈ (w2p.st p).funcs.reverse := by
                rw [hfp3]
                exact List.mem_reverse.mpr hpr
              have hmemP := runHooks_probe_mem w2p ((w2p.st p).funcs.reverse) hprR
              have hcdc : (w2p.st c).closedFlag = true := by
                apply E12p.2.1 c
                rw [st_setSt_push, if_neg hplt.ne']
                show ((afterHooks w2 c ev).st c).closedFlag = true
                exact afterHooks_closed w2 c ev
              rw [hcdc] at hmemP
              refine ⟨(w2p.st c).closingFlag, ?_⟩
              rw [hr]
              show Event.obs c _ true ∈ r5.1.log
              have hmem3 : Event.obs c (w2p.st c).closingFlag true ∈
                  (afterHooks w2p p evp).log := by
                rw [afterHooks_log]
                exact List.mem_append_left _ hmemP
              rcases horp with ⟨hrp, _⟩ | ⟨q2, r6, _, _, _, hr6, hrp⟩
              · rw [hrp]
                exact hmem3
              · rw [hrp]
                obtain ⟨t3, ht3, _⟩ := (closeNode_evolves _ _ _ _ hr6).2.2.2.2.2.2
                rw [ht3, pushEvent_log]
                exact List.mem_append_left _ (List.mem_append_left _ hmem3)

def c5w : World := twoNodeWorld true [Hook.probe 1 none] []

def c5r : World × Option (List Err) := (closeNode 3 c5w 1).getD (c5w, none)

theorem claim_C5_witness :
    ParentConsistent c5w ∧ IdOrdered c5w ∧ ParentOrdered c5w ∧
    (c5w.st 1).twoWay = true ∧ (c5w.st 1).parent = some 0 ∧
    IsClosing c5w 1 = false ∧ IsClosing c5w 0 = false ∧
    Hook.probe 1 none ∈ (c5w.st 0).funcs ∧ c5w.log = [] ∧
    closeNode 3 c5w 1 = some c5r ∧
    (IsClosed c5r.1 0 = true ∧ IsClosed c5r.1 1 = true ∧
     ∃ cg, Event.obs 1 cg true ∈ c5r.1.log) := by
  have h : closeNode 3 c5w 1 = some c5r := rfl
  have hp : (c5w.st 1).parent = some 0 := by decide
  have htw : (c5w.st 1).twoWay = true := by decide
  have hpr : Hook.probe 1 none ∈ (c5w.st 0).funcs := by decide
  exact ⟨twoNodeWorld_parentConsistent true [Hook.probe 1 none] [],
    twoNodeWorld_idOrdered true [Hook.probe 1 none] [],
    twoNodeWorld_parentOrdered true [Hook.probe 1 none] [],
    htw, hp, rfl, rfl, hpr, rfl, h,
    claim_C5 h (twoNodeWorld_parentConsistent true [Hook.probe 1 none] [])
      (twoNodeWorld_idOrdered true [Hook.probe 1 none] [])
      (twoNodeWorld_parentOrdered true [Hook.probe 1 none] [])
      htw hp rfl rfl hpr rfl⟩

end CloserPkg

namespace CloserPkg

/-! ## Lock discipline (C8): the mutex trace of a `Close` -/

/-- One step of lock counting over the event trace. -/
def lockStep (n : NodeId) (d : Int) (e : Event) : Int :=
  match e with
  | Event.lock m => if m = n then d + 1 else d
  | Event.unlock m => if m = n then d - 1 else d
  | _ => d

/-- Net number of times node `n`'s mutex has been acquired minus released
over a trace: `n`'s mutex is held after `t` exactly when this is positive
(the execution is sequential, so at most one acquisition is outstanding). -/
def lockDepth (n : NodeId) (t : List Event) : Int :=
  t.foldl (lockStep n) 0

theorem lockStep_shift (n : NodeId) (d : Int) (e : Event) :
    lockStep n d e = d + lockStep n 0 e := by
  cases e <;> simp only [lockStep] <;> try omega
  · split <;> omega
  · split <;> omega

theorem foldl_lockStep_shift (n : NodeId) :
    ∀ (t : List Event) (d : Int), t.foldl (lockStep n) d = d + t.foldl (lockStep n) 0 := by
  intro t
  induction t with
  | nil => intro d; simp
  | cons e t ih =>
      intro d
      simp only [List.foldl_cons]
      rw [ih (lockStep n d e), ih (lockStep n 0 e), lockStep_shift]
      ring

theorem lockDepth_append (n : NodeId) (a b : List Event) :
    lockDepth n (a ++ b) = lockDepth n a + lockDepth n b := by
  unfold lockDepth
  rw [List.foldl_append, foldl_lockStep_shift]

theorem lockDepth_lock (n m : NodeId) :
    lockDepth n [Event.lock m] = if m = n then 1 else 0 := by
  by_cases h : m = n <;> simp [lockDepth, lockStep, h]

theorem lockDepth_unlock (n m : NodeId) :
    lockDepth n [Event.unlock m] = if m = n then -1 else 0 := by
  by_cases h : m = n <;> simp [lockDepth, lockStep, h]

theorem lockDepth_callChild (n a b : NodeId) :
    lockDepth n [Event.callChild a b] = 0 := by
  simp [lockDepth, lockStep]

theorem lockDepth_callParent (n a b : NodeId) :
    lockDepth n [Event.callParent a b] = 0 := by
  simp [lockDepth, lockStep]

theorem lockDepth_obs_list (n : NodeId) :
    ∀ (t : List Event), (∀ e ∈ t, ∃ tg cg cd, e = Event.obs tg cg cd) →
      lockDepth n t = 0 := by
  intro t
  induction t with
  | nil => intro _; rfl
  | cons e t ih =>
      intro h
      obtain ⟨tg, cg, cd, he⟩ := h e (List.mem_cons_self _ _)
      subst he
      show lockDepth n ([Event.obs tg cg cd] ++ t) = 0
      rw [lockDepth_append, ih (fun e2 h2 => h e2 (List.mem_cons_of_mem _ h2))]
      simp [lockDepth, lockStep]

/-- Splitting an append at a distinguished element. -/
theorem append_cons_cases {α : Type} (s1 s2 a b : List α) (e : α)
    (h : s1 ++ s2 = a ++ e :: b) :
    (∃ b1, s1 = a ++ e :: b1 ∧ b = b1 ++ s2) ∨
    (∃ a2, a = s1 ++ a2 ∧ s2 = a2 ++ e :: b) := by
  induction s1 generalizing a with
  | nil =>
      right
      exact ⟨a, by simp, by simpa using h⟩
  | cons x s1 ih =>
      cases a with
      | nil =>
          injection h with h1 h2
          left
          exact ⟨s1, by simp [h1], h2.symm⟩
      | cons y a =>
          injection h with h1 h2
          rcases ih a h2 with ⟨b1, hb1, hb2⟩ | ⟨a2, ha1, ha2⟩
          · left
            exact ⟨b1, by rw [h1, hb1]; rfl, hb2⟩
          · right
            exact ⟨a2, by rw [h1, ha1]; rfl, ha2⟩

theorem singleton_split {α : Type} {a b : List α} {e x : α}
    (h : [x] = a ++ e :: b) : a = [] ∧ e = x ∧ b = [] := by
  cases a with
  | nil =>
      injection h with h1 h2
      exact ⟨rfl, h1.symm, h2.symm⟩
  | cons y a =>
      injection h with h1 h2
      cases a <;> simp at h2

theorem pair_split {α : Type} {a b : List α} {e x y : α}
    (h : [x, y] = a ++ e :: b) : e = x ∨ e = y := by
  cases a with
  | nil =>
      injection h with h1 _
      exact Or.inl h1.symm
  | cons z a =>
      injection h with h1 h2
      rcases singleton_split h2 with ⟨_, h3, _⟩
      exact Or.inr h3

/-- Every node's mutex is fully released by the end of the trace. -/
def Balanced (t : List Event) : Prop := ∀ m, lockDepth m t = 0

/-- Lock discipline of the cross-node calls recorded in a trace segment:
every `child.Close()` invocation happens while the invoking node holds its
own mutex; every upward `parent.Close()` invocation happens with the
invoker's mutex released; and each invoker was not yet closing when the
segment started. -/
def CallsOk (w : World) (t : List Event) : Prop :=
  (∀ a b cl ch, t = a ++ Event.callChild cl ch :: b →
    0 < lockDepth cl a ∧ (w.st cl).closingFlag = false) ∧
  (∀ a b cl pq, t = a ++ Event.callParent cl pq :: b →
    lockDepth cl a = 0 ∧ (w.st cl).closingFlag = false)

theorem callsOk_append {w : World} {s1 s2 : List Event}
    (h1 : CallsOk w s1) (hb : Balanced s1) (h2 : CallsOk w s2) :
    CallsOk w (s1 ++ s2) := by
  constructor
  · intro a b cl ch hsplit
    rcases append_cons_cases s1 s2 a b _ hsplit with ⟨b1, hs1, _⟩ | ⟨a2, ha, hs2⟩
    · exact h1.1 a b1 cl ch hs1
    · obtain ⟨hd, hf⟩ := h2.1 a2 b cl ch hs2
      refine ⟨?_, hf⟩
      rw [ha, lockDepth_append, hb cl]
      simpa using hd
  · intro a b cl pq hsplit
    rcases append_cons_cases s1 s2 a b _ hsplit with ⟨b1, hs1, _⟩ | ⟨a2, ha, hs2⟩
    · exact h1.2 a b1 cl pq hs1
    · obtain ⟨hd, hf⟩ := h2.2 a2 b cl pq hs2
      refine ⟨?_, hf⟩
      rw [ha, lockDepth_append, hb cl]
      simpa using hd

/-- The trace segment of the children loop of a closing node `n`: the loop's
own `callChild n _` invocations happen at depth 0 within the segment (the
enclosing `lock n` is outside it), all other recorded invocations come from
nodes that freshly started closing inside the loop (hence not `n`), children
calls under their caller's lock and parent calls outside it. -/
def ChildPhase (w : World) (n : NodeId) (t : List Event) : Prop :=
  (∀ a b cl ch, t = a ++ Event.callChild cl ch :: b →
    (cl = n ∧ lockDepth cl a = 0) ∨
    (cl ≠ n ∧ 0 < lockDepth cl a ∧ (w.st cl).closingFlag = false)) ∧
  (∀ a b cl pq, t = a ++ Event.callParent cl pq :: b →
    cl ≠ n ∧ lockDepth cl a = 0 ∧ (w.st cl).closingFlag = false)

/-- The events appended by running close funcs are observations only. -/
theorem runHooks_log_obs (hs : List Hook) : ∀ (w : World),
    ∃ t, (runHooks w hs).1.log = w.log ++ t ∧
      ∀ e ∈ t, ∃ tg cg cd, e = Event.obs tg cg cd := by
  induction hs with
  | nil => intro w; exact ⟨[], by simp [runHooks], by simp⟩
  | cons h0 hs ih =>
      intro w
      obtain ⟨t, ht, hobs⟩ := ih (runHook w h0).1
      cases h0 with
      | ret e =>
          exact ⟨t, ht, hobs⟩
      | probe tg e =>
          refine ⟨Event.obs tg (w.st tg).closingFlag (w.st tg).closedFlag :: t, ?_, ?_⟩
          · show (runHooks (runHook w (Hook.probe tg e)).1 hs).1.log = _
            rw [ht]
            show (pushEvent w _).log ++ t = _
            rw [pushEvent_log]
            simp
          · intro e2 he2
            rcases List.mem_cons.mp he2 with he2 | he2
            · exact ⟨tg, _, _, he2⟩
            · exact hobs e2 he2

end CloserPkg

namespace CloserPkg

/-! ## Lock discipline over a full `Close` run (claim C8) -/

theorem no_split_nil {α : Type} {a b : List α} {e : α}
    (h : ([] : List α) = a ++ e :: b) : False := by
  cases a <;> exact List.noConfusion h

/-- Freshness of callers transfers backward along closing-flag monotonicity. -/
theorem callsOk_mono {w wB : World} {t : List Event}
    (hm : ∀ m, (w.st m).closingFlag = true → (wB.st m).closingFlag = true)
    (h : CallsOk wB t) : CallsOk w t := by
  have fresh : ∀ cl, (wB.st cl).closingFlag = false →
      (w.st cl).closingFlag = false := by
    intro cl hf
    cases hw : (w.st cl).closingFlag with
    | false => rfl
    | true =>
        rw [hm cl hw] at hf
        exact Bool.noConfusion hf
  constructor
  · intro a b cl ch hs
    obtain ⟨hd, hf⟩ := h.1 a b cl ch hs
    exact ⟨hd, fresh cl hf⟩
  · intro a b cl pq hs
    obtain ⟨hd, hf⟩ := h.2 a b cl pq hs
    exact ⟨hd, fresh cl hf⟩

/-- Prefixing an upward call (made at depth 0 by a fresh caller) preserves the
call discipline of the tail. -/
theorem callsOk_cons_parent {w : World} {n p : NodeId} {tp : List Event}
    (hn : (w.st n).closingFlag = false) (htp : CallsOk w tp) :
    CallsOk w (Event.callParent n p :: tp) := by
  constructor
  · intro a b cl ch hs
    cases a with
    | nil =>
        injection hs with h1 _
        exact Event.noConfusion h1
    | cons x a =>
        injection hs with h1 h2
        obtain ⟨hd, hf⟩ := htp.1 a b cl ch h2
        refine ⟨?_, hf⟩
        subst h1
        show 0 < lockDepth cl ([Event.callParent n p] ++ a)
        have hap := lockDepth_append cl [Event.callParent n p] a
        have hc0 := lockDepth_callParent cl n p
        omega
  · intro a b cl pq hs
    cases a with
    | nil =>
        injection hs with h1 _
        injection h1 with hcl hpq
        subst hcl
        exact ⟨rfl, hn⟩
    | cons x a =>
        injection hs with h1 h2
        obtain ⟨hd, hf⟩ := htp.2 a b cl pq h2
        refine ⟨?_, hf⟩
        subst h1
        show lockDepth cl ([Event.callParent n p] ++ a) = 0
        have hap := lockDepth_append cl [Event.callParent n p] a
        have hc0 := lockDepth_callParent cl n p
        omega

/-- Assembling the critical section of one `Close` body: the lock, the
children loop (a `ChildPhase` segment), the observation-only hook events, and
the unlock, give a balanced trace obeying the call discipline: the children
calls of `n` happen under `n`'s own lock, all other recorded calls keep the
discipline they had inside the loop. -/
theorem callsOk_close_segment {w w1 : World} {n : NodeId} {S th : List Event}
    (hn : (w.st n).closingFlag = false)
    (hst : ∀ m, m ≠ n → w1.st m = w.st m)
    (hph : ChildPhase w1 n S) (hSb : Balanced S)
    (hobs : ∀ e ∈ th, ∃ tg cg cd, e = Event.obs tg cg cd) :
    CallsOk w ([Event.lock n] ++ S ++ th ++ [Event.unlock n]) ∧
    Balanced ([Event.lock n] ++ S ++ th ++ [Event.unlock n]) := by
  have hthd : ∀ cl, lockDepth cl th = 0 := fun cl => lockDepth_obs_list cl th hobs
  constructor
  · constructor
    · intro a b cl ch hs
      rcases append_cons_cases [Event.lock n] (S ++ th ++ [Event.unlock n]) a b _ hs
        with ⟨b1, h1, _⟩ | ⟨a2, ha, h2⟩
      · rcases singleton_split h1 with ⟨_, he, _⟩
        exact Event.noConfusion he
      · rcases append_cons_cases (S ++ th) [Event.unlock n] a2 b _ h2
          with ⟨b1, h21, _⟩ | ⟨a4, ha24, h4⟩
        · rcases append_cons_cases S th a2 b1 _ h21
            with ⟨b2, hS1, _⟩ | ⟨a5, ha25, hth1⟩
          · rcases hph.1 a2 b2 cl ch hS1 with ⟨hcl, hd⟩ | ⟨hne, hd, hf⟩
            · subst hcl
              subst ha
              refine ⟨?_, hn⟩
              have hap := lockDepth_append cl [Event.lock cl] a2
              have hlk := lockDepth_lock cl cl
              rw [if_pos rfl] at hlk
              omega
            · subst ha
              refine ⟨?_, by rw [← hst cl hne]; exact hf⟩
              have hap := lockDepth_append cl [Event.lock n] a2
              have hlk := lockDepth_lock cl n
              rw [if_neg (fun hq => hne hq.symm)] at hlk
              omega
          · have hmem : Event.callChild cl ch ∈ th := by
              rw [hth1]
              exact List.mem_append.mpr (Or.inr (List.mem_cons_self _ _))
            obtain ⟨tg, cg, cd, habs⟩ := hobs _ hmem
            exact Event.noConfusion habs
        · rcases singleton_split h4 with ⟨_, he, _⟩
          exact Event.noConfusion he
    · intro a b cl pq hs
      rcases append_cons_cases [Event.lock n] (S ++ th ++ [Event.unlock n]) a b _ hs
        with ⟨b1, h1, _⟩ | ⟨a2, ha, h2⟩
      · rcases singleton_split h1 with ⟨_, he, _⟩
        exact Event.noConfusion he
      · rcases append_cons_cases (S ++ th) [Event.unlock n] a2 b _ h2
          with ⟨b1, h21, _⟩ | ⟨a4, ha24, h4⟩
        · rcases append_cons_cases S th a2 b1 _ h21
            with ⟨b2, hS1, _⟩ | ⟨a5, ha25, hth1⟩
          · obtain ⟨hne, hd, hf⟩ := hph.2 a2 b2 cl pq hS1
            subst ha
            refine ⟨?_, by rw [← hst cl hne]; exact hf⟩
            have hap := lockDepth_append cl [Event.lock n] a2
            have hlk := lockDepth_lock cl n
            rw [if_neg (fun hq => hne hq.symm)] at hlk
            omega
          · have hmem : Event.callParent cl pq ∈ th := by
              rw [hth1]
              exact List.mem_append.mpr (Or.inr (List.mem_cons_self _ _))
            obtain ⟨tg, cg, cd, habs⟩ := hobs _ hmem
            exact Event.noConfusion habs
        · rcases singleton_split h4 with ⟨_, he, _⟩
          exact Event.noConfusion he
  · intro m
    have hap1 := lockDepth_append m ([Event.lock n] ++ S ++ th) [Event.unlock n]
    have hap2 := lockDepth_append m ([Event.lock n] ++ S) th
    have hap3 := lockDepth_append m [Event.lock n] S
    have h4 := lockDepth_lock m n
    have h5 := lockDepth_unlock m n
    have h6 := hSb m
    have h7 := hthd m
    by_cases hm : n = m
    · rw [if_pos hm] at h4 h5
      omega
    · rw [if_neg hm] at h4 h5
      omega

/-- The children loop of a closing node `n` yields a balanced trace forming a
`ChildPhase` segment: `n`'s own child calls at segment depth 0, every other
recorded call with its inherited discipline and a caller that was still fresh
at the loop's start. -/
theorem closeList_seg (fuel : Nat)
    (IH : ∀ (w : World) (x : NodeId) (r : World × Option (List Err)),
        closeNode fuel w x = some r →
        ∃ t, r.1.log = w.log ++ t ∧ Balanced t ∧ CallsOk w t) :
    ∀ (cs : List NodeId) (w w2 : World) (n : NodeId),
      (w.st n).closingFlag = true →
      closeListWith (fun wa c => closeNode fuel (pushEvent wa (Event.callChild n c)) c)
        w cs = some w2 →
      ∃ t, w2.log = w.log ++ t ∧ Balanced t ∧ ChildPhase w n t := by
  intro cs
  induction cs with
  | nil =>
      intro w w2 n hn h
      simp [closeListWith] at h
      refine ⟨[], by rw [← h]; simp, fun m => rfl, ?_, ?_⟩
      · intro a b cl ch hs
        exact (no_split_nil hs).elim
      · intro a b cl pq hs
        exact (no_split_nil hs).elim
  | cons c cs ih =>
      intro w w2 n hn h
      simp only [closeListWith] at h
      cases hc : closeNode fuel (pushEvent w (Event.callChild n c)) c with
      | none => rw [hc] at h; simp at h
      | some r =>
          rw [hc] at h
          obtain ⟨tc, htc, hbc, hcc⟩ := IH _ c r hc
          have E : Evolves (pushEvent w (Event.callChild n c)) r.1 :=
            closeNode_evolves fuel _ c r hc
          have hn2 : (r.1.st n).closingFlag = true := E.1 n hn
          obtain ⟨t2, ht2, hb2, hph2⟩ := ih r.1 w2 n hn2 h
          have hfreshE : ∀ cl, (r.1.st cl).closingFlag = false →
              (w.st cl).closingFlag = false := by
            intro cl hf
            cases hw : (w.st cl).closingFlag with
            | false => rfl
            | true =>
                have hq := E.1 cl hw
                rw [hq] at hf
                exact Bool.noConfusion hf
          refine ⟨Event.callChild n c :: (tc ++ t2), ?_, ?_, ?_, ?_⟩
          · rw [ht2, htc, pushEvent_log]
            simp
          · intro m
            show lockDepth m ([Event.callChild n c] ++ (tc ++ t2)) = 0
            have hap1 := lockDepth_append m [Event.callChild n c] (tc ++ t2)
            have hap2 := lockDepth_append m tc t2
            have hc0 := lockDepth_callChild m n c
            have hbtc := hbc m
            have hbt2 := hb2 m
            omega
          · intro a b cl ch hs
            cases a with
            | nil =>
                injection hs with h1 _
                injection h1 with hcln hchc
                exact Or.inl ⟨hcln.symm, rfl⟩
            | cons x a =>
                injection hs with h1 h2
                rcases append_cons_cases tc t2 a b _ h2
                  with ⟨b1, htc1, _⟩ | ⟨a2, ha2, ht21⟩
                · obtain ⟨hd, hf⟩ := hcc.1 a b1 cl ch htc1
                  have hfw : (w.st cl).closingFlag = false := hf
                  have hne : cl ≠ n := by
                    intro hq
                    subst hq
                    rw [hn] at hfw
                    exact Bool.noConfusion hfw
                  refine Or.inr ⟨hne, ?_, hfw⟩
                  subst h1
                  show 0 < lockDepth cl ([Event.callChild n c] ++ a)
                  have hap := lockDepth_append cl [Event.callChild n c] a
                  have hc0 := lockDepth_callChild cl n c
                  omega
                · rcases hph2.1 a2 b cl ch ht21 with ⟨hcl, hd⟩ | ⟨hne, hd, hf⟩
                  · subst hcl
                    subst h1
                    subst ha2
                    refine Or.inl ⟨rfl, ?_⟩
                    show lockDepth cl ([Event.callChild cl c] ++ (tc ++ a2)) = 0
                    have hap1 := lockDepth_append cl [Event.callChild cl c] (tc ++ a2)
                    have hap2 := lockDepth_append cl tc a2
                    have hc0 := lockDepth_callChild cl cl c
                    have hbtc := hbc cl
                    omega
                  · subst h1
                    subst ha2
                    refine Or.inr ⟨hne, ?_, hfreshE cl hf⟩
                    show 0 < lockDepth cl ([Event.callChild n c] ++ (tc ++ a2))
                    have hap1 := lockDepth_append cl [Event.callChild n c] (tc ++ a2)
                    have hap2 := lockDepth_append cl tc a2
                    have hc0 := lockDepth_callChild cl n c
                    have hbtc := hbc cl
                    omega
          · intro a b cl pq hs
            cases a with
            | nil =>
                injection hs with h1 _
                exact Event.noConfusion h1
            | cons x a =>
                injection hs with h1 h2
                rcases append_cons_cases tc t2 a b _ h2
                  with ⟨b1, htc1, _⟩ | ⟨a2, ha2, ht21⟩
                · obtain ⟨hd, hf⟩ := hcc.2 a b1 cl pq htc1
                  have hfw : (w.st cl).closingFlag = false := hf
                  have hne : cl ≠ n := by
                    intro hq
                    subst hq
                    rw [hn] at hfw
                    exact Bool.noConfusion hfw
                  refine ⟨hne, ?_, hfw⟩
                  subst h1
                  show lockDepth cl ([Event.callChild n c] ++ a) = 0
                  have hap := lockDepth_append cl [Event.callChild n c] a
                  have hc0 := lockDepth_callChild cl n c
                  omega
                · obtain ⟨hne, hd, hf⟩ := hph2.2 a2 b cl pq ht21
                  refine ⟨hne, ?_, hfreshE cl hf⟩
                  subst h1
                  subst ha2
                  show lockDepth cl ([Event.callChild n c] ++ (tc ++ a2)) = 0
                  have hap1 := lockDepth_append cl [Event.callChild n c] (tc ++ a2)
                  have hap2 := lockDepth_append cl tc a2
                  have hc0 := lockDepth_callChild cl n c
                  have hbtc := hbc cl
                  omega

/-- The full trace of a completed `Close` is balanced and obeys the call
discipline of the source: every recorded `callChild` is made with the calling
node's own mutex held, every recorded `callParent` with it released, and every
recorded caller was not yet closing at the start. -/
theorem closeNode_seg :
    ∀ (fuel : Nat) (w : World) (n : NodeId) (r : World × Option (List Err)),
      closeNode fuel w n = some r →
      ∃ t, r.1.log = w.log ++ t ∧ Balanced t ∧ CallsOk w t := by
  intro fuel
  induction fuel with
  | zero =>
      intro w n r h
      exact absurd h (by simp [closeNode])
  | succ fuel ihf =>
      intro w n r h
      by_cases hn : (w.st n).closingFlag = true
      · rw [closeNode_short h hn]
        refine ⟨[Event.lock n, Event.unlock n], ?_, ?_, ?_, ?_⟩
        · show (pushEvent (pushEvent w (Event.lock n)) (Event.unlock n)).log = _
          rw [pushEvent_log, pushEvent_log]
          simp
        · intro m
          show lockDepth m ([Event.lock n] ++ [Event.unlock n]) = 0
          have hap := lockDepth_append m [Event.lock n] [Event.unlock n]
          have h4 := lockDepth_lock m n
          have h5 := lockDepth_unlock m n
          by_cases hm : n = m
          · rw [if_pos hm] at h4 h5
            omega
          · rw [if_neg hm] at h4 h5
            omega
        · intro a b cl ch hs
          rcases pair_split hs with he | he <;> exact Event.noConfusion he
        · intro a b cl pq hs
          rcases pair_split hs with he | he <;> exact Event.noConfusion he
      · have hn2 : (w.st n).closingFlag = false := by simpa using hn
        obtain ⟨w2, ev, hw2, hwg, hev, hor⟩ := closeNode_run h hn2
        have hcl1 : ((setSt (pushEvent w (Event.lock n)) n
            { (pushEvent w (Event.lock n)).st n with closingFlag := true }).st n).closingFlag
            = true := by
          rw [st_setSt_push, if_pos rfl]
        have hstw1 : ∀ m, m ≠ n →
            (setSt (pushEvent w (Event.lock n)) n
              { (pushEvent w (Event.lock n)).st n with closingFlag := true }).st m
            = w.st m := by
          intro m hm
          rw [st_setSt_push, if_neg hm]
        obtain ⟨S, hSlog, hSb, hSph⟩ := closeList_seg fuel ihf _ _ _ n hcl1 hw2
        obtain ⟨th, hth, hthobs⟩ := runHooks_log_obs (w2.st n).funcs.reverse w2
        have hseg := callsOk_close_segment hn2 hstw1 hSph hSb hthobs
        have hw4log : (afterHooks w2 n ev).log =
            w.log ++ ([Event.lock n] ++ S ++ th ++ [Event.unlock n]) := by
          rw [afterHooks_log, hth, hSlog, setSt_log, pushEvent_log]
          simp
        rcases hor with ⟨hr, _⟩ | ⟨p, r5, htw, hpq, hclp, hr5, hr⟩
        · refine ⟨[Event.lock n] ++ S ++ th ++ [Event.unlock n], ?_, hseg.2, hseg.1⟩
          rw [hr]
          exact hw4log
        · obtain ⟨tp, htp, hbp, hcp⟩ := ihf _ p r5 hr5
          have hm4 : ∀ m, (w.st m).closingFlag = true →
              ((afterHooks w2 n ev).st m).closingFlag = true := by
            intro m hm
            by_cases hmn : m = n
            · subst hmn
              rw [hn2] at hm
              exact Bool.noConfusion hm
            · rw [afterHooks_st_ne w2 n ev hmn]
              have E12 := evolves_children fuel n _ _ _ hw2
              apply E12.1 m
              rw [st_setSt_push, if_neg hmn]
              exact hm
          have hcpw4 : CallsOk (afterHooks w2 n ev) tp := hcp
          have hcpw : CallsOk w tp := callsOk_mono hm4 hcpw4
          have htail : CallsOk w (Event.callParent n p :: tp) :=
            callsOk_cons_parent hn2 hcpw
          refine ⟨([Event.lock n] ++ S ++ th ++ [Event.unlock n]) ++
              (Event.callParent n p :: tp), ?_, ?_,
              callsOk_append hseg.1 hseg.2 htail⟩
          · rw [hr]
            show r5.1.log = _
            rw [htp, pushEvent_log, hw4log]
            simp
          · intro m
            have hap1 := lockDepth_append m ([Event.lock n] ++ S ++ th ++ [Event.unlock n])
              (Event.callParent n p :: tp)
            have hap2 : lockDepth m (Event.callParent n p :: tp) =
                lockDepth m [Event.callParent n p] + lockDepth m tp :=
              lockDepth_append m [Event.callParent n p] tp
            have hc0 := lockDepth_callParent m n p
            have hb1 := hseg.2 m
            have hbpm := hbp m
            omega

end CloserPkg

namespace CloserPkg

/-! ## Claim C8 -/

def c8w : World := twoNodeWorld false [] []

def c8r : World × Option (List Err) := (closeNode 2 c8w 0).getD (c8w, none)

/-- C8 counterexample: closing the root of a two-node tree yields the trace
lock 0, callChild 0 1, lock 1, unlock 1, unlock 0 — the recorded call into the
child's `Close` is made while node 0 still holds its own mutex (net lock depth
1 at the call site), refuting the claim that a node never holds its own
critical section while invoking another node's public methods. -/
theorem claim_C8_counterexample :
    closeNode 2 c8w 0 = some c8r ∧
    c8r.1.log = [Event.lock 0] ++ Event.callChild 0 1 ::
      [Event.lock 1, Event.unlock 1, Event.unlock 0] ∧
    ¬ lockDepth 0 [Event.lock 0] = 0 := by
  refine ⟨rfl, rfl, by decide⟩

/-- C8 (corrected): in any completed `Close` run started on a quiet log, every
recorded call into a child's `Close` is made while the calling node holds its
own mutex (positive net lock depth over the preceding trace), whereas every
recorded call into the parent's `Close` is made with the caller's mutex
released (net lock depth zero) — only the upward call obeys the
outside-the-critical-section discipline stated by the spec. -/
theorem claim_C8 {fuel : Nat} {w : World} {n : NodeId}
    {r : World × Option (List Err)}
    (h : closeNode fuel w n = some r) (hlog : w.log = []) :
    (∀ a b cl ch, r.1.log = a ++ Event.callChild cl ch :: b →
        0 < lockDepth cl a) ∧
    (∀ a b cl pq, r.1.log = a ++ Event.callParent cl pq :: b →
        lockDepth cl a = 0) := by
  obtain ⟨t, ht, _, hc⟩ := closeNode_seg fuel w n r h
  rw [hlog] at ht
  simp at ht
  constructor
  · intro a b cl ch hs
    exact (hc.1 a b cl ch (ht.symm.trans hs)).1
  · intro a b cl pq hs
    exact (hc.2 a b cl pq (ht.symm.trans hs)).1

def c8w2 : World := twoNodeWorld true [] []

def c8r2 : World × Option (List Err) := (closeNode 3 c8w2 1).getD (c8w2, none)

/-- C8 witness: closing the two-way child of a two-node tree completes (with
an upward call into the parent's `Close`), and the claim's lock discipline
holds for the resulting trace. -/
theorem claim_C8_witness :
    (∀ a b cl ch, c8r2.1.log = a ++ Event.callChild cl ch :: b →
        0 < lockDepth cl a) ∧
    (∀ a b cl pq, c8r2.1.log = a ++ Event.callParent cl pq :: b →
        lockDepth cl a = 0) := by
  have h : closeNode 3 c8w2 1 = some c8r2 := rfl
  have hlog : c8w2.log = [] := rfl
  exact claim_C8 h hlog

end CloserPkg
